import Mathlib

/-!
Verification model of the RankGEO GEO-score pipeline and site crawler.

The definitions below are a shallow embedding of the TypeScript sources:
the AnalysisService (runGeoScorePipeline, groupSources, domainKey,
normalizeUrlForMatch, urlMatches, classifyDomains) and the CrawlService
(crawlSite, normalizeBase, sameOrigin).  The WHATWG URL parser used by the
code through the platform's URL class is modelled by an executable parser
for absolute hierarchical http/https URLs written as scheme://authority/path
(scheme case-insensitive; host lower-cased at parse time with a forbidden
character check; an explicit non-default port of decimal digits; the path
kept verbatim up to the first query or fragment delimiter; query and
fragment discarded, as every modelled call site clears them).  Strings are
modelled as their character lists; lower-casing is ASCII.  External network
calls are modelled by explicit outcome parameters.
-/

/-- Lower-case one character, ASCII range only: this models what the
platform URL parser and String.toLowerCase do on the ASCII characters the
code manipulates. -/
def lowc (c : Char) : Char :=
  if 65 ≤ c.toNat ∧ c.toNat ≤ 90 then Char.ofNat (c.toNat + 32) else c

theorem toNat_ofNat_small (n : Nat) (h1 : 97 ≤ n) (h2 : n ≤ 122) :
    (Char.ofNat n).toNat = n := by
  have hv : n.isValidChar := Or.inl (by omega)
  rw [Char.ofNat, dif_pos hv]
  simp only [Char.ofNatAux, Char.toNat, UInt32.toNat]
  simp [BitVec.toNat_ofNatLt]

theorem char_eq_of_toNat_eq {a b : Char} (h : a.toNat = b.toNat) : a = b := by
  apply Char.ext
  apply UInt32.ext
  exact h

/-- Either a character is fixed by lower-casing, or it is an ASCII upper-case
letter whose lower-case sits 32 code points higher. -/
theorem lowc_cases (c : Char) :
    lowc c = c ∨ (65 ≤ c.toNat ∧ c.toNat ≤ 90 ∧ (lowc c).toNat = c.toNat + 32) := by
  unfold lowc
  by_cases h : 65 ≤ c.toNat ∧ c.toNat ≤ 90
  · right
    rw [if_pos h]
    exact ⟨h.1, h.2, toNat_ofNat_small _ (by omega) (by omega)⟩
  · left
    rw [if_neg h]

theorem lowc_fixed_of_not_upper {c : Char} (h : ¬ (65 ≤ c.toNat ∧ c.toNat ≤ 90)) :
    lowc c = c := by
  unfold lowc
  rw [if_neg h]

theorem lowc_lowc (c : Char) : lowc (lowc c) = lowc c := by
  rcases lowc_cases c with h | ⟨_, _, h3⟩
  · rw [h, h]
  · exact lowc_fixed_of_not_upper (by omega)

theorem lowc_fixed_of_toNat_lt {c : Char} (h : c.toNat < 65) : lowc c = c := by
  unfold lowc
  rw [if_neg (by omega)]

/-- A character whose code is outside the lower-case letter range is the
image of lowc only at itself (provided it is itself lowc-fixed). -/
theorem lowc_eq_iff {c f : Char} (hfix : lowc f = f)
    (hnl : f.toNat < 97 ∨ 122 < f.toNat) : lowc c = f ↔ c = f := by
  constructor
  · intro h
    rcases lowc_cases c with h2 | ⟨_, _, h3⟩
    · rw [← h2, h]
    · exfalso
      have : (lowc c).toNat = f.toNat := by rw [h]
      omega
  · intro h
    rw [h, hfix]

theorem map_lowc_idem (l : List Char) : (l.map lowc).map lowc = l.map lowc := by
  rw [List.map_map]
  apply List.map_congr_left
  intro c _
  exact lowc_lowc c

/-- Split a character list at the first occurrence of a delimiter, returning
the part before and the part after it; none if the delimiter is absent. -/
def splitAtFirst (t : Char) : List Char → Option (List Char × List Char)
  | [] => none
  | c :: cs =>
    if c = t then some ([], cs)
    else (splitAtFirst t cs).map (fun p => (c :: p.1, p.2))

/-- Canonical decimal digit string: leading zeros removed, the all-zero
string collapsing to a single zero.  Models how the URL parser stores a
port value. -/
def stripZeros (l : List Char) : List Char :=
  let r := l.dropWhile (fun c => c = '0')
  if r.isEmpty then ['0'] else r

/-- Code points that make a host invalid in the modelled parser (the
WHATWG forbidden host code points relevant to this development). -/
def isForbiddenHost (c : Char) : Bool :=
  c = ' ' || c = '#' || c = '/' || c = '?' || c = '@' || c = ':' || c = '%' ||
  c = '\\' || c = '<' || c = '>' || c = '[' || c = ']' || c = '^' || c = '|' || c = '"'

def isDigitC (c : Char) : Bool := 48 ≤ c.toNat && c.toNat ≤ 57

/-- Characters that continue the authority component: everything up to the
first path, query or fragment delimiter. -/
def isAuthChar (c : Char) : Bool := !(c = '/' || c = '?' || c = '#')

def isPathChar (c : Char) : Bool := !(c = '?' || c = '#')

/-- Parsed absolute http(s) URL: scheme (secure = https), lower-cased host,
optional canonical non-default port digits, and the path component kept
verbatim (query and fragment already discarded). -/
structure URLm where
  secure : Bool
  host : List Char
  port : Option (List Char)
  path : List Char
deriving DecidableEq, Repr

def defaultPortDigits (secure : Bool) : List Char :=
  if secure then ['4', '4', '3'] else ['8', '0']

/-- The authority split at its first colon into raw host and raw port. -/
def splitHostPort (auth : List Char) : List Char × Option (List Char) :=
  match splitAtFirst ':' auth with
  | none => (auth, none)
  | some p => (p.1, some p.2)

/-- The port component: absent or empty means the scheme default; digits
are canonicalized and a default port is dropped; anything else fails. -/
def parsePort (secure : Bool) : Option (List Char) → Option (Option (List Char))
  | none => some none
  | some [] => some none
  | some pd =>
    if pd.all isDigitC then
      let d := stripZeros pd
      if d = defaultPortDigits secure then some none else some (some d)
    else none

/-- Host and port of an authority component; fails on an empty or invalid
host or a non-numeric port. -/
def parseAuthority (secure : Bool) (auth : List Char) :
    Option (List Char × Option (List Char)) :=
  let host := (splitHostPort auth).1.map lowc
  if host.isEmpty || host.any isForbiddenHost then none
  else
    match parsePort secure (splitHostPort auth).2 with
    | none => none
    | some port => some (host, port)

/-- The path component read from what follows the authority: kept up to a
query or fragment delimiter when slash-initial, the root path otherwise. -/
def pathOf (after : List Char) : List Char :=
  match after with
  | '/' :: _ => after.takeWhile isPathChar
  | _ => ['/']

/-- Everything after the scheme's colon: requires the two slashes, then the
authority, then the path. -/
def parseAfterScheme (secure : Bool) : List Char → Option URLm
  | '/' :: '/' :: r =>
    (parseAuthority secure (r.takeWhile isAuthChar)).map
      (fun hp => ⟨secure, hp.1, hp.2, pathOf (r.dropWhile isAuthChar)⟩)
  | _ => none

/-- The modelled URL parser (the new URL(...) constructor restricted to
absolute hierarchical http/https inputs; everything else is a parse
failure, which the code under verification always catches). -/
def parseChars (l : List Char) : Option URLm :=
  match splitAtFirst ':' l with
  | none => none
  | some p =>
    if p.1.map lowc = "http".data then parseAfterScheme false p.2
    else if p.1.map lowc = "https".data then parseAfterScheme true p.2
    else none

def parseURL (s : String) : Option URLm := parseChars s.data

/-- Serialized origin, scheme://host with the explicit port if any; always
already lower-case. -/
def originChars (u : URLm) : List Char :=
  (if u.secure then "https://".data else "http://".data) ++ u.host ++
    (match u.port with
     | none => []
     | some d => ':' :: d)

/-- One trailing slash removed, as the replace of a slash-at-end pattern
does in the source. -/
def stripTrailingSlash (p : List Char) : List Char :=
  if p.getLast? = some '/' then p.dropLast else p

/-- AnalysisService.normalizeUrlForMatch: lower-cased origin plus the path
with one trailing slash stripped, query and fragment cleared; on parse
failure the lower-cased raw string. -/
def normalizeUrlForMatch (url : String) : String :=
  match parseURL url with
  | some u => ⟨(originChars u).map lowc ++ stripTrailingSlash u.path⟩
  | none => ⟨url.data.map lowc⟩

/-- AnalysisService.urlMatches: the normalized source equals the normalized
site or extends it at a path boundary. -/
def urlMatches (sourceUrl normalizedSite : String) : Bool :=
  let s := normalizeUrlForMatch sourceUrl
  s == normalizedSite || (normalizedSite ++ "/").data.isPrefixOf s.data

/-- The string domainKey hands to the URL constructor: the input itself
when it starts with http, otherwise the input prefixed with http:// (the
reassignment inside the try block). -/
def domainKeyInput (urlStr : String) : String :=
  if !("http".data.isPrefixOf urlStr.data) then ⟨"http://".data ++ urlStr.data⟩
  else urlStr

/-- AnalysisService.domainKey (current service): inputs not starting with
http are first prefixed with http://; on parse success the parsed hostname
with one leading www. stripped, on failure the possibly-prefixed string. -/
def domainKey (urlStr : String) : String :=
  match parseURL (domainKeyInput urlStr) with
  | some u =>
    if "www.".data.isPrefixOf u.host then ⟨u.host.drop 4⟩ else ⟨u.host⟩
  | none => domainKeyInput urlStr

/-- The closed category set from geo-score.types.ts. -/
inductive SourceCategory where
  | social_media
  | shopping
  | forums_qa
  | review_editorial
  | news_press
  | other
deriving DecidableEq, Repr

/-- isSourceCategory's positive cases, as a partial decoding of the raw
classifier string. -/
def catOfString (s : String) : Option SourceCategory :=
  if s = "social_media" then some .social_media
  else if s = "shopping" then some .shopping
  else if s = "forums_qa" then some .forums_qa
  else if s = "review_editorial" then some .review_editorial
  else if s = "news_press" then some .news_press
  else if s = "other" then some .other
  else none

def isSourceCategory (s : String) : Bool := (catOfString s).isSome

/-- One grouped-domain row of the result (geo-score.types.ts). -/
structure SourcesByDomain where
  domain : String
  count : Nat
  urls : List String
  category : SourceCategory
deriving DecidableEq, Repr

/-- countByUrl.set(u, (get(u) ?? 0) + 1) over an insertion-ordered map. -/
def bump (u : String) : List (String × Nat) → List (String × Nat)
  | [] => [(u, 1)]
  | (k, c) :: rest => if k = u then (k, c + 1) :: rest else (k, c) :: bump u rest

/-- Occurrence counts per exact URL string, keys in first-occurrence order
(the Map built by the first loop of groupSources). -/
def countByUrl (urls : List String) : List (String × Nat) :=
  urls.foldl (fun m u => bump u m) []

/-- Per-domain accumulator entry of groupSources before the final mapping. -/
structure DomAcc where
  domain : String
  count : Nat
  urls : List String
deriving DecidableEq, Repr

/-- Merge one distinct URL and its count into the per-domain accumulator,
keyed by domain in first-occurrence order (the byDomain Map). -/
def addDom (d u : String) (c : Nat) : List DomAcc → List DomAcc
  | [] => [⟨d, c, [u]⟩]
  | e :: es =>
    if e.domain = d then
      ⟨e.domain, e.count + c, if u ∈ e.urls then e.urls else e.urls ++ [u]⟩ :: es
    else e :: addDom d u c es

def byDomain (m : List (String × Nat)) : List DomAcc :=
  m.foldl (fun acc kv => addDom (domainKey kv.1) kv.1 kv.2 acc) []

/-- Code-unit comparison on strings, the default JS sort order. -/
def listLeC : List Char → List Char → Bool
  | [], _ => true
  | _ :: _, [] => false
  | a :: as, b :: bs =>
    if a.toNat < b.toNat then true
    else if a = b then listLeC as bs
    else false

def strLeB (a b : String) : Bool := listLeC a.data b.data

def insertStrLe (x : String) : List String → List String
  | [] => [x]
  | y :: ys => if strLeB x y then x :: y :: ys else y :: insertStrLe x ys

/-- The [...urls].sort() of groupSources: lexicographic, ascending. -/
def sortStrs (l : List String) : List String := l.foldr insertStrLe []

def insertByCount (x : SourcesByDomain) : List SourcesByDomain → List SourcesByDomain
  | [] => [x]
  | y :: ys => if y.count ≤ x.count then x :: y :: ys else y :: insertByCount x ys

/-- The .sort((a, b) => b.count - a.count) of groupSources: stable,
descending by count, so ties keep first-insertion order. -/
def sortByCountDesc (l : List SourcesByDomain) : List SourcesByDomain :=
  l.foldr insertByCount []

/-- AnalysisService.groupSources: count per exact URL, merge per domain key,
emit rows with sorted URL lists and category other, sorted by count
descending. -/
def groupSources (sourceUrls : List String) : List SourcesByDomain :=
  sortByCountDesc ((byDomain (countByUrl sourceUrls)).map
    (fun e => ⟨e.domain, e.count, sortStrs e.urls, SourceCategory.other⟩))

/-- One web-search call's reported internal queries and cited URLs
(geo-score.types.ts WebSearchCallResult). -/
structure WebSearchCallResult where
  internalPrompts : List String
  sources : List String
deriving DecidableEq, Repr

structure PromptResult where
  prompt : String
  apparitionLikelihood : Nat
  sources : List SourcesByDomain
deriving DecidableEq, Repr

/-- The pipeline's final report (analysis payload elided: it is an opaque
pass-through of an external service's output). -/
structure GeoScoreResult where
  score : Nat
  numSearchPrompts : Nat
  internalPrompts : List String
  generatedPrompts : List String
  sources : List SourcesByDomain
  promptResults : List PromptResult
deriving DecidableEq, Repr

def isWs (c : Char) : Bool := c = ' ' || c = '\t' || c = '\n' || c = '\r'

/-- JS String.prototype.trim restricted to common ASCII whitespace. -/
def trimStr (s : String) : String :=
  ⟨((s.data.dropWhile isWs).reverse.dropWhile isWs).reverse⟩

/-- Record key overwrite: out[k] = v. -/
def upsertCat (k : String) (v : SourceCategory) :
    List (String × SourceCategory) → List (String × SourceCategory)
  | [] => [(k, v)]
  | (k', v') :: rest =>
    if k' = k then (k', v) :: rest else (k', v') :: upsertCat k v rest

/-- lower-cased, trimmed, one leading www. stripped: how classifyDomains
normalizes the keys the classifier returns. -/
def normalizeClassifierKey (k : String) : String :=
  let d := trimStr ⟨k.data.map lowc⟩
  if "www.".data.isPrefixOf d.data then ⟨d.data.drop 4⟩ else d

/-- Outcome of the single batched classification call: a thrown error /
non-success status / unparsable body, a response with no usable string
content, or a parsed JSON object given as key-value pairs. -/
inductive ClassifierOutcome where
  | callFailure
  | emptyContent
  | parsed (entries : List (String × String))
deriving DecidableEq, Repr

/-- AnalysisService.classifyDomains with the external call's outcome made
explicit.  An empty domain list returns the empty map without consulting
the outcome (i.e. without calling out); every failure also yields the
empty map; a parsed body is folded into a record with normalized keys and
unrecognized category values coerced to other. -/
def classifyDomains (domains : List String) (o : ClassifierOutcome) :
    List (String × SourceCategory) :=
  if domains.isEmpty then []
  else
    match o with
    | .callFailure => []
    | .emptyContent => []
    | .parsed entries =>
      entries.foldl
        (fun acc kv =>
          upsertCat (normalizeClassifierKey kv.1) ((catOfString kv.2).getD .other) acc)
        []

/-- categoryMap[domain] ?? other. -/
def lookupCat (m : List (String × SourceCategory)) (d : String) : SourceCategory :=
  match m.find? (fun kv => kv.1 == d) with
  | some kv => kv.2
  | none => .other

def assignCats (m : List (String × SourceCategory)) (srcs : List SourcesByDomain) :
    List SourcesByDomain :=
  srcs.map (fun s => { s with category := lookupCat m s.domain })

/-- Math.round of a ratio of naturals (round half up, the JS behaviour on
the non-negative values that occur here). -/
def jsRound (num den : Nat) : Nat := (2 * num + den) / (2 * den)

/-- Likelihood computed per web-search call: 100 when any cited URL matches
the normalized target, else 0. -/
def likelihoodFor (normalizedSite : String) (r : WebSearchCallResult) : Nat :=
  if r.sources.any (fun s => urlMatches s normalizedSite) then 100 else 0

/-- First-occurrence deduplication, modelling Set insertion order. -/
def dedupKeep (l : List String) : List String :=
  l.foldl (fun acc d => if d ∈ acc then acc else acc ++ [d]) []

/-- The per-prompt inner loop of runGeoScorePipeline: one PromptResult per
internal query of each web-search call, carrying the call's likelihood and
its grouped per-call sources. -/
def promptResultsOf (url : String) (results : List WebSearchCallResult) :
    List PromptResult :=
  results.flatMap (fun r =>
    r.internalPrompts.map (fun p =>
      ⟨p, likelihoodFor (normalizeUrlForMatch url) r, groupSources r.sources⟩))

/-- The promptsWhereSiteAppeared accumulator: incremented once per internal
query of a call whose likelihood is 100. -/
def promptsWhereSiteAppearedOf (url : String) (results : List WebSearchCallResult) : Nat :=
  results.foldl
    (fun acc r =>
      acc + (if likelihoodFor (normalizeUrlForMatch url) r = 100
        then r.internalPrompts.length else 0))
    0

/-- The overall score: rounded percentage over the PromptResult entries,
0 when there are none. -/
def scoreOf (url : String) (results : List WebSearchCallResult) : Nat :=
  if (promptResultsOf url results).length = 0 then 0
  else jsRound (100 * promptsWhereSiteAppearedOf url results)
    (promptResultsOf url results).length

/-- Distinct domains over the global and per-prompt groupings, in Set
insertion order, the input to the classifier call. -/
def uniqueDomainsOf (url : String) (results : List WebSearchCallResult) : List String :=
  dedupKeep ((groupSources (results.flatMap (fun r => r.sources))).map (fun s => s.domain) ++
    (promptResultsOf url results).flatMap (fun pr => pr.sources.map (fun s => s.domain)))

/-- AnalysisService.runGeoScorePipeline as a function of the target url,
the generated prompts, each prompt's web-search outcome (the Promise.all
results, one per generated prompt, in order), the configured prompt count
and the classifier call's outcome. -/
def runGeoScorePipeline (url : String) (generatedPrompts : List String)
    (results : List WebSearchCallResult) (nps : Nat) (o : ClassifierOutcome) :
    GeoScoreResult :=
  let categoryMap := classifyDomains (uniqueDomainsOf url results) o
  { score := scoreOf url results
    numSearchPrompts := nps
    internalPrompts := results.flatMap (fun r => r.internalPrompts)
    generatedPrompts := generatedPrompts
    sources := assignCats categoryMap (groupSources (results.flatMap (fun r => r.sources)))
    promptResults := (promptResultsOf url results).map
      (fun pr => { pr with sources := assignCats categoryMap pr.sources }) }

/-- The concurrent fan-out joined by Promise.all: every per-prompt call must
succeed, results appear in input order; the first failure (in join order)
rejects the whole operation with that error. -/
def searchAll (call : String → Except String WebSearchCallResult)
    (prompts : List String) : Except String (List WebSearchCallResult) :=
  prompts.mapM call

/-- The pipeline including its fallible stages: the no-prompt guard and the
search fan-out; a fan-out failure aborts with no partial result. -/
def runGeoScorePipelineE (url : String) (generatedPrompts : List String)
    (nps : Nat) (o : ClassifierOutcome)
    (call : String → Except String WebSearchCallResult) :
    Except String GeoScoreResult :=
  if generatedPrompts.isEmpty then .error "Failed to generate search prompts"
  else
    match searchAll call generatedPrompts with
    | .error e => .error e
    | .ok results => .ok (runGeoScorePipeline url generatedPrompts results nps o)

structure PageContent where
  url : String
  text : String
deriving DecidableEq, Repr

def MAX_PAGES : Nat := 10

/-- CrawlService.normalizeBase: the seed URL with query and fragment
cleared, serialized, one trailing slash stripped; the empty string when the
seed does not parse as an http(s) URL. -/
def normalizeBase (url : String) : String :=
  match parseURL url with
  | some u => ⟨stripTrailingSlash (originChars u ++ u.path)⟩
  | none => ""

/-- CrawlService.sameOrigin: both sides parse and their origins coincide;
false on any parse failure. -/
def sameOrigin (base url : String) : Bool :=
  match parseURL base, parseURL url with
  | some a, some b => originChars a == originChars b
  | _, _ => false

structure CrawlSt where
  seen : List String
  queue : List String
  results : List PageContent

/-- One dequeued URL processed: a failed / non-OK / non-HTML fetch is
skipped; otherwise the page is kept when its extracted text is long
enough, and each discovered link that is not fragment-only or mailto,
resolves, is same-origin and unseen is enqueued (marked seen at enqueue
time).  The fetch and the href resolution against the base are the
environment, passed as oracles. -/
def crawlLinkStep (base : String) (resolve : String → Option String)
    (s : CrawlSt) (href : String) : CrawlSt :=
  if "#".data.isPrefixOf href.data || "mailto:".data.isPrefixOf href.data then s
  else
    match resolve href with
    | none => s
    | some absolute =>
      if sameOrigin base absolute && !(s.seen.contains absolute) then
        { s with seen := s.seen ++ [absolute], queue := s.queue ++ [absolute] }
      else s

def crawlVisit (base : String) (resolve : String → Option String) (url : String)
    (fetched : Option (String × List String)) (st : CrawlSt) : CrawlSt :=
  match fetched with
  | none => st
  | some (text, hrefs) =>
    let st1 :=
      if text.length > 100 then { st with results := st.results ++ [⟨url, text⟩] } else st
    hrefs.foldl (crawlLinkStep base resolve) st1

/-- The crawl's while loop, fuel-indexed so that every finite prefix of the
real traversal is an instance. -/
def crawlLoop (fetchO : String → Option (String × List String))
    (resolve : String → Option String) (base : String) :
    Nat → CrawlSt → List PageContent
  | 0, st => st.results
  | Nat.succ fuel, st =>
    match st.queue with
    | [] => st.results
    | url :: rest =>
      if st.results.length < MAX_PAGES then
        crawlLoop fetchO resolve base fuel
          (crawlVisit base resolve url (fetchO url) { st with queue := rest })
      else st.results

/-- CrawlService.crawlSite over the fetch and resolve oracles. -/
def crawlSite (siteUrl : String) (fetchO : String → Option (String × List String))
    (resolve : String → Option String) (fuel : Nat) : List PageContent :=
  let base := normalizeBase siteUrl
  crawlLoop fetchO resolve base fuel ⟨[base], [base], []⟩

/-! Structural lemmas about the URL parser model. -/

theorem splitAtFirst_eq_some {t : Char} {l a b : List Char}
    (h : splitAtFirst t l = some (a, b)) : l = a ++ t :: b ∧ t ∉ a := by
  induction l generalizing a b with
  | nil => simp [splitAtFirst] at h
  | cons c cs ih =>
    by_cases hc : c = t
    · simp [splitAtFirst, hc] at h
      obtain ⟨rfl, rfl⟩ := h
      simp [hc]
    · unfold splitAtFirst at h
      rw [if_neg hc] at h
      cases hsp : splitAtFirst t cs with
      | none => rw [hsp] at h; simp at h
      | some p =>
        obtain ⟨p1, p2⟩ := p
        rw [hsp] at h
        simp only [Option.map_some'] at h
        have h2 := Option.some.inj h
        rw [Prod.mk.injEq] at h2
        obtain ⟨h3, h4⟩ := h2
        subst h3
        subst h4
        obtain ⟨rfl, hna⟩ := ih hsp
        refine ⟨rfl, ?_⟩
        simp only [List.mem_cons, not_or]
        exact ⟨fun he => hc he.symm, hna⟩

theorem splitAtFirst_append {t : Char} {a : List Char} (b : List Char)
    (h : t ∉ a) : splitAtFirst t (a ++ t :: b) = some (a, b) := by
  induction a with
  | nil => simp [splitAtFirst]
  | cons c cs ih =>
    have hc : c ≠ t := fun he => h (by simp [he])
    have hcs : t ∉ cs := fun hm => h (by simp [hm])
    simp [splitAtFirst, hc, ih hcs]

theorem splitAtFirst_none {t : Char} {l : List Char} (h : t ∉ l) :
    splitAtFirst t l = none := by
  induction l with
  | nil => rfl
  | cons c cs ih =>
    have hc : c ≠ t := fun he => h (by simp [he])
    have hcs : t ∉ cs := fun hm => h (by simp [hm])
    simp [splitAtFirst, hc, ih hcs]

theorem takeWhile_append_all {p : Char → Bool} {xs : List Char} (ys : List Char)
    (h : ∀ c ∈ xs, p c = true) :
    (xs ++ ys).takeWhile p = xs ++ ys.takeWhile p := by
  induction xs with
  | nil => simp
  | cons c cs ih =>
    have hc := h c (by simp)
    simp only [List.cons_append, List.takeWhile_cons, hc, if_true]
    rw [ih (fun d hd => h d (by simp [hd]))]

theorem dropWhile_append_all {p : Char → Bool} {xs : List Char} (ys : List Char)
    (h : ∀ c ∈ xs, p c = true) :
    (xs ++ ys).dropWhile p = ys.dropWhile p := by
  induction xs with
  | nil => simp
  | cons c cs ih =>
    have hc := h c (by simp)
    simp only [List.cons_append, List.dropWhile_cons, hc, if_true]
    exact ih (fun d hd => h d (by simp [hd]))

theorem takeWhile_of_all {p : Char → Bool} {xs : List Char}
    (h : ∀ c ∈ xs, p c = true) : xs.takeWhile p = xs := by
  have := @takeWhile_append_all p xs [] h
  simpa using this

theorem dropWhile_head_false {p : Char → Bool} {l : List Char} {c : Char}
    {cs : List Char} (h : l.dropWhile p = c :: cs) : p c = false := by
  induction l with
  | nil => simp [List.dropWhile] at h
  | cons a as ih =>
    by_cases ha : p a
    · rw [List.dropWhile_cons_of_pos ha] at h
      exact ih h
    · rw [List.dropWhile_cons_of_neg ha] at h
      cases h
      exact Bool.eq_false_iff.mpr ha

theorem stripZeros_ne_nil (l : List Char) : stripZeros l ≠ [] := by
  unfold stripZeros
  by_cases he : (l.dropWhile (fun c => c = '0')).isEmpty
  · simp [he]
  · rw [if_neg he]
    exact fun hnil => he (by simp [hnil])

theorem stripZeros_idem (l : List Char) : stripZeros (stripZeros l) = stripZeros l := by
  unfold stripZeros
  by_cases he : (l.dropWhile (fun c => c = '0')).isEmpty
  · simp [he, List.dropWhile]
  · simp only [he, if_false]
    cases hd : l.dropWhile (fun c => c = '0') with
    | nil => exact absurd (by simp [hd]) he
    | cons c cs =>
      have hc : (fun c => decide (c = '0')) c = false := dropWhile_head_false hd
      simp [List.dropWhile_cons, hc]

theorem all_takeWhile (p : Char → Bool) (l : List Char) :
    (l.takeWhile p).all p = true := by
  induction l with
  | nil => rfl
  | cons c cs ih =>
    by_cases hc : p c
    · simp [List.takeWhile_cons, hc, ih]
    · simp [List.takeWhile_cons, hc]

theorem stripZeros_all_digits {l : List Char} (h : l.all isDigitC = true) :
    (stripZeros l).all isDigitC = true := by
  unfold stripZeros
  by_cases he : (l.dropWhile (fun c => c = '0')).isEmpty
  · simp only [he, if_true]
    decide
  · simp only [he, if_false]
    rw [List.all_eq_true] at h ⊢
    intro x hx
    exact h x ((List.dropWhile_sublist _).mem hx)

/-- Invariants every successfully parsed URL satisfies: a non-empty
lower-cased valid host, a canonical non-default numeric port, and a
slash-initial path free of query and fragment delimiters. -/
def URLInv (u : URLm) : Prop :=
  u.host ≠ [] ∧ u.host.map lowc = u.host ∧ u.host.any isForbiddenHost = false ∧
  (∀ d, u.port = some d →
    d ≠ [] ∧ d.all isDigitC = true ∧ stripZeros d = d ∧ d ≠ defaultPortDigits u.secure) ∧
  (∃ r, u.path = '/' :: r) ∧ u.path.all isPathChar = true

theorem parsePort_eq_some {secure : Bool} {pr : Option (List Char)}
    {port : Option (List Char)} (h : parsePort secure pr = some port) :
    ∀ d, port = some d →
      d ≠ [] ∧ d.all isDigitC = true ∧ stripZeros d = d ∧ d ≠ defaultPortDigits secure := by
  intro d hd
  subst hd
  match pr with
  | none => simp [parsePort] at h
  | some [] => simp [parsePort] at h
  | some (c :: cs) =>
    simp only [parsePort] at h
    split_ifs at h with hdig hdef
    · exact absurd (Option.some.inj h) (by simp)
    · have h3 := Option.some.inj (Option.some.inj h)
      subst h3
      exact ⟨stripZeros_ne_nil _, stripZeros_all_digits hdig, stripZeros_idem _, hdef⟩

theorem parseAuthority_eq_some {secure : Bool} {auth host : List Char}
    {port : Option (List Char)}
    (h : parseAuthority secure auth = some (host, port)) :
    host ≠ [] ∧ host.map lowc = host ∧ host.any isForbiddenHost = false ∧
      (∀ d, port = some d →
        d ≠ [] ∧ d.all isDigitC = true ∧ stripZeros d = d ∧ d ≠ defaultPortDigits secure) := by
  unfold parseAuthority at h
  by_cases hg : (((splitHostPort auth).1.map lowc).isEmpty ||
      ((splitHostPort auth).1.map lowc).any isForbiddenHost) = true
  · rw [if_pos hg] at h
    exact absurd h (by simp)
  · rw [if_neg hg] at h
    rw [Bool.not_eq_true, Bool.or_eq_false_iff] at hg
    split at h
    · exact absurd h (by simp)
    · rename_i port2 hpp
      have h2 := Option.some.inj h
      rw [Prod.mk.injEq] at h2
      obtain ⟨h3, h4⟩ := h2
      subst h3
      subst h4
      refine ⟨?_, map_lowc_idem _, hg.2, parsePort_eq_some hpp⟩
      intro hnil
      rw [hnil] at hg
      simp at hg

theorem pathOf_shape (after : List Char) :
    (∃ r, pathOf after = '/' :: r) ∧ (pathOf after).all isPathChar = true := by
  unfold pathOf
  split
  · rw [List.takeWhile_cons_of_pos (by decide)]
    refine ⟨⟨_, rfl⟩, ?_⟩
    rw [List.all_cons, all_takeWhile isPathChar _]
    decide
  · exact ⟨⟨[], rfl⟩, by decide⟩

theorem parseAfterScheme_eq_some {secure : Bool} {rest : List Char} {u : URLm}
    (h : parseAfterScheme secure rest = some u) : u.secure = secure ∧ URLInv u := by
  unfold parseAfterScheme at h
  split at h
  case h_2 => exact absurd h (by simp)
  case h_1 r =>
    rw [Option.map_eq_some'] at h
    obtain ⟨hp, hpa, hu⟩ := h
    subst hu
    obtain ⟨hne, hlow, hforb, hport⟩ := parseAuthority_eq_some
      (show parseAuthority secure (r.takeWhile isAuthChar) = some (hp.1, hp.2) by rw [hpa])
    exact ⟨rfl, hne, hlow, hforb, hport, pathOf_shape _⟩

/-- Every parse success satisfies the URL invariants. -/
theorem parse_inv {l : List Char} {u : URLm} (h : parseChars l = some u) : URLInv u := by
  unfold parseChars at h
  split at h
  · exact absurd h (by simp)
  · split_ifs at h with h1 h2
    · exact (parseAfterScheme_eq_some h).2
    · exact (parseAfterScheme_eq_some h).2

/-- The scheme recorded on a parse success. -/
theorem parse_secure {l : List Char} {u : URLm} (h : parseChars l = some u) :
    ∀ sch rest, splitAtFirst ':' l = some (sch, rest) →
      (sch.map lowc = "http".data ∧ u.secure = false ∧ parseAfterScheme false rest = some u) ∨
      (sch.map lowc = "https".data ∧ u.secure = true ∧ parseAfterScheme true rest = some u) := by
  intro sch rest hsp
  unfold parseChars at h
  rw [hsp] at h
  simp only at h
  split_ifs at h with h1 h2
  · exact Or.inl ⟨h1, (parseAfterScheme_eq_some h).1, h⟩
  · exact Or.inr ⟨h2, (parseAfterScheme_eq_some h).1, h⟩

theorem forbidden_false_elim {c : Char} (h : isForbiddenHost c = false) :
    c ≠ ' ' ∧ c ≠ '#' ∧ c ≠ '/' ∧ c ≠ '?' ∧ c ≠ '@' ∧ c ≠ ':' := by
  unfold isForbiddenHost at h
  simp only [Bool.or_eq_false_iff, decide_eq_false_iff_not] at h
  exact ⟨h.1.1.1.1.1.1.1.1.1.1.1.1.1.1, h.1.1.1.1.1.1.1.1.1.1.1.1.1.2,
    h.1.1.1.1.1.1.1.1.1.1.1.1.2, h.1.1.1.1.1.1.1.1.1.1.1.2,
    h.1.1.1.1.1.1.1.1.1.1.2, h.1.1.1.1.1.1.1.1.1.2⟩

theorem authChar_of_not_forbidden {c : Char} (h : isForbiddenHost c = false) :
    isAuthChar c = true := by
  obtain ⟨_, h2, h3, h4, _, _⟩ := forbidden_false_elim h
  simp [isAuthChar, h2, h3, h4]

theorem digit_facts {c : Char} (h : isDigitC c = true) :
    c ≠ '/' ∧ c ≠ '?' ∧ c ≠ '#' ∧ c ≠ ':' := by
  refine ⟨?_, ?_, ?_, ?_⟩ <;> intro he <;> subst he <;> exact absurd h (by decide)

theorem digit_authChar {c : Char} (h : isDigitC c = true) : isAuthChar c = true := by
  obtain ⟨h1, h2, h3, _⟩ := digit_facts h
  simp [isAuthChar, h1, h2, h3]

theorem originChars_decomp (u : URLm) :
    originChars u = (if u.secure then "https".data else "http".data) ++
      ':' :: '/' :: '/' ::
        (u.host ++ (match u.port with | none => [] | some d => ':' :: d)) := by
  unfold originChars
  cases hs : u.secure <;> simp [List.append_assoc]

/-- Re-parsing a serialized origin with a well-formed path extension
recovers the same URL; the key fact behind the stability of the
normalization on already-normalized inputs. -/
theorem parse_roundtrip {u : URLm} (hInv : URLInv u) (p' : List Char)
    (hp : p' = [] ∨ ((∃ r, p' = '/' :: r) ∧ p'.all isPathChar = true)) :
    parseChars (originChars u ++ p') =
      some ⟨u.secure, u.host, u.port, if p'.isEmpty then ['/'] else p'⟩ := by
  obtain ⟨hne, hlow, hforb, hport, _, _⟩ := hInv
  have hforbEach : ∀ c ∈ u.host, isForbiddenHost c = false := by
    intro c hc
    rcases List.any_eq_false.mp hforb c hc with h
    exact Bool.eq_false_iff.mpr h
  have hhost_auth : ∀ c ∈ u.host, isAuthChar c = true :=
    fun c hc => authChar_of_not_forbidden (hforbEach c hc)
  have hhost_nocolon : ':' ∉ u.host := by
    intro hc
    exact (forbidden_false_elim (hforbEach ':' hc)).2.2.2.2.2 rfl
  -- the port part of the serialized authority
  have hpp : ∀ c ∈ (match u.port with | none => [] | some d => ':' :: d),
      isAuthChar c = true := by
    intro c hc
    cases hpo : u.port with
    | none => rw [hpo] at hc; simp at hc
    | some d =>
      rw [hpo] at hc
      simp only [List.mem_cons] at hc
      rcases hc with rfl | hc
      · decide
      · obtain ⟨_, hdig, _, _⟩ := hport d hpo
        exact digit_authChar (List.all_eq_true.mp hdig c hc)
  have hsch_nocolon : ':' ∉ (if u.secure then "https".data else "http".data) := by
    cases u.secure <;> decide
  have hR : originChars u ++ p' =
      (if u.secure then "https".data else "http".data) ++
        ':' :: ('/' :: '/' ::
          (u.host ++ (match u.port with | none => [] | some d => ':' :: d) ++ p')) := by
    rw [originChars_decomp]
    simp [List.append_assoc]
  rw [hR]
  unfold parseChars
  rw [splitAtFirst_append _ hsch_nocolon]
  have hauth_all : ∀ c ∈ u.host ++ (match u.port with | none => [] | some d => ':' :: d),
      isAuthChar c = true := by
    intro c hc
    rcases List.mem_append.mp hc with hc | hc
    · exact hhost_auth c hc
    · exact hpp c hc
  have htake : (u.host ++ (match u.port with | none => [] | some d => ':' :: d) ++ p').takeWhile
      isAuthChar = u.host ++ (match u.port with | none => [] | some d => ':' :: d) ++
        p'.takeWhile isAuthChar := by
    rw [List.append_assoc, takeWhile_append_all _ hhost_auth, takeWhile_append_all _ hpp,
      List.append_assoc]
  have hdrop : (u.host ++ (match u.port with | none => [] | some d => ':' :: d) ++ p').dropWhile
      isAuthChar = p'.dropWhile isAuthChar := by
    rw [List.append_assoc, dropWhile_append_all _ hhost_auth, dropWhile_append_all _ hpp]
  have htake_p : p'.takeWhile isAuthChar = [] := by
    rcases hp with rfl | ⟨⟨r, rfl⟩, _⟩
    · rfl
    · rw [List.takeWhile_cons_of_neg (by decide)]
  have hdrop_p : p'.dropWhile isAuthChar = p' := by
    rcases hp with rfl | ⟨⟨r, rfl⟩, _⟩
    · rfl
    · rw [List.dropWhile_cons_of_neg (by decide)]
  have hauthres : parseAuthority u.secure
      (u.host ++ (match u.port with | none => [] | some d => ':' :: d)) =
        some (u.host, u.port) := by
    have hsplit : splitHostPort
        (u.host ++ (match u.port with | none => [] | some d => ':' :: d)) =
          (u.host, match u.port with | none => none | some d => some d) := by
      cases hpo : u.port with
      | none =>
        unfold splitHostPort
        rw [List.append_nil, splitAtFirst_none hhost_nocolon]
      | some d =>
        unfold splitHostPort
        rw [splitAtFirst_append _ hhost_nocolon]
    unfold parseAuthority
    rw [hsplit]
    simp only [hlow]
    have hguard : (u.host.isEmpty || u.host.any isForbiddenHost) = false := by
      rw [Bool.or_eq_false_iff]
      refine ⟨?_, hforb⟩
      cases hh : u.host with
      | nil => exact absurd hh hne
      | cons c cs => rfl
    rw [if_neg (by rw [hguard]; exact Bool.false_ne_true)]
    cases hpo : u.port with
    | none => rfl
    | some d =>
      obtain ⟨hdne, hdig, hstrip, hdef⟩ := hport d hpo
      have hpd : parsePort u.secure (some d) = some (some d) := by
        cases d with
        | nil => exact absurd rfl hdne
        | cons c cs =>
          simp only [parsePort]
          rw [if_pos hdig]
          simp only [hstrip]
          rw [if_neg hdef]
      rw [hpd]
  -- assemble through parseAfterScheme
  have hbody : parseAfterScheme u.secure
      ('/' :: '/' ::
        (u.host ++ (match u.port with | none => [] | some d => ':' :: d) ++ p')) =
      some ⟨u.secure, u.host, u.port, if p'.isEmpty then ['/'] else p'⟩ := by
    simp only [parseAfterScheme]
    rw [htake, htake_p, List.append_nil, hauthres]
    simp only [Option.map_some']
    rw [hdrop, hdrop_p]
    rcases hp with rfl | ⟨⟨r, rfl⟩, hall⟩
    · rfl
    · simp only [List.isEmpty_cons]
      simp only [pathOf]
      rw [takeWhile_of_all (List.all_eq_true.mp hall)]
      rw [if_neg Bool.false_ne_true]
  cases hs : u.secure
  · simp only [hs, if_false]
    rw [if_pos (by decide)]
    rw [← hs, hbody, hs]
  · simp only [hs, if_true]
    rw [if_neg (by decide), if_pos (by decide)]
    rw [← hs, hbody, hs]

theorem lowc_eq_special {c f : Char} (hf : f.toNat < 65) : lowc c = f ↔ c = f :=
  lowc_eq_iff (lowc_fixed_of_toNat_lt hf) (Or.inl (by omega))

theorem lowc_digit_compat (c : Char) : isDigitC (lowc c) = isDigitC c := by
  rcases lowc_cases c with h | ⟨h1, h2, h3⟩
  · rw [h]
  · unfold isDigitC
    rw [Bool.eq_iff_iff]
    simp only [Bool.and_eq_true, decide_eq_true_eq]
    omega

theorem authChar_lowc (c : Char) : isAuthChar (lowc c) = isAuthChar c := by
  unfold isAuthChar
  rw [decide_eq_decide.mpr (lowc_eq_special (f := '/') (by decide)),
    decide_eq_decide.mpr (lowc_eq_special (f := '?') (by decide)),
    decide_eq_decide.mpr (lowc_eq_special (f := '#') (by decide))]

theorem pathChar_lowc (c : Char) : isPathChar (lowc c) = isPathChar c := by
  unfold isPathChar
  rw [decide_eq_decide.mpr (lowc_eq_special (f := '?') (by decide)),
    decide_eq_decide.mpr (lowc_eq_special (f := '#') (by decide))]

theorem map_lowc_of_all_digits {pd : List Char} (h : pd.all isDigitC = true) :
    pd.map lowc = pd := by
  conv_rhs => rw [← List.map_id pd]
  apply List.map_congr_left
  intro c hc
  show lowc c = c
  have hd := List.all_eq_true.mp h c hc
  rcases lowc_cases c with h2 | ⟨h1, _, _⟩
  · exact h2
  · exfalso
    unfold isDigitC at hd
    simp only [Bool.and_eq_true, decide_eq_true_eq] at hd
    omega

theorem splitAtFirst_map_lowc {t : Char} (ht : t.toNat < 65) (l : List Char) :
    splitAtFirst t (l.map lowc) =
      (splitAtFirst t l).map (fun p => (p.1.map lowc, p.2.map lowc)) := by
  induction l with
  | nil => rfl
  | cons c cs ih =>
    simp only [List.map_cons, splitAtFirst]
    by_cases hc : c = t
    · rw [if_pos ((lowc_eq_special ht).mpr hc), if_pos hc]
      rfl
    · rw [if_neg (fun he => hc ((lowc_eq_special ht).mp he)), if_neg hc, ih]
      cases splitAtFirst t cs <;> rfl

theorem parseAuthority_map_lowc (secure : Bool) (auth : List Char) :
    parseAuthority secure (auth.map lowc) = parseAuthority secure auth := by
  have hsp : splitHostPort (auth.map lowc) =
      ((splitHostPort auth).1.map lowc, (splitHostPort auth).2.map (List.map lowc)) := by
    unfold splitHostPort
    rw [splitAtFirst_map_lowc (by decide)]
    cases splitAtFirst ':' auth <;> rfl
  unfold parseAuthority
  rw [hsp]
  simp only [map_lowc_idem]
  have hpp : parsePort secure ((splitHostPort auth).2.map (List.map lowc)) =
      parsePort secure (splitHostPort auth).2 := by
    cases hpo : (splitHostPort auth).2 with
    | none => rfl
    | some pd =>
      cases pd with
      | nil => rfl
      | cons c cs =>
        simp only [Option.map_some', List.map_cons, parsePort]
        rw [show (lowc c :: cs.map lowc).all isDigitC = (c :: cs).all isDigitC by
          rw [← List.map_cons, List.all_map,
            show (isDigitC ∘ lowc) = isDigitC from funext lowc_digit_compat]]
        by_cases hd : (c :: cs).all isDigitC = true
        · rw [if_pos hd, if_pos hd]
          rw [show lowc c :: cs.map lowc = c :: cs from
            (List.map_cons lowc c cs) ▸ map_lowc_of_all_digits hd]
        · rw [if_neg hd, if_neg hd]
  rw [hpp]

theorem pathOf_not_slash {x : Char} {xs : List Char} (h : x ≠ '/') :
    pathOf (x :: xs) = ['/'] := by
  unfold pathOf
  split
  · rename_i heq
    rw [List.cons.injEq] at heq
    exact absurd heq.1 h
  · rfl

theorem pathOf_map_lowc (l : List Char) : pathOf (l.map lowc) = (pathOf l).map lowc := by
  cases l with
  | nil => decide
  | cons x xs =>
    by_cases hx : x = '/'
    · subst hx
      simp only [List.map_cons]
      rw [show lowc '/' = '/' by decide]
      unfold pathOf
      simp only []
      rw [List.takeWhile_cons_of_pos (by decide), List.takeWhile_cons_of_pos (by decide)]
      rw [List.takeWhile_map]
      rw [show (isPathChar ∘ lowc) = isPathChar from funext pathChar_lowc]
      rfl
    · simp only [List.map_cons]
      rw [pathOf_not_slash hx, pathOf_not_slash (fun he => hx ((lowc_eq_special (by decide)).mp he))]
      decide

theorem parseAfterScheme_no_slashes {c1 c2 : Char} (h : ¬(c1 = '/' ∧ c2 = '/'))
    (secure : Bool) (rest : List Char) :
    parseAfterScheme secure (c1 :: c2 :: rest) = none := by
  unfold parseAfterScheme
  split
  · rename_i r heq
    rw [List.cons.injEq, List.cons.injEq] at heq
    exact absurd ⟨heq.1, heq.2.1⟩ h
  · rfl

theorem parseAfterScheme_map_lowc (secure : Bool) (rest : List Char) :
    parseAfterScheme secure (rest.map lowc) =
      (parseAfterScheme secure rest).map (fun m => { m with path := m.path.map lowc }) := by
  match rest with
  | [] => rfl
  | [c] =>
    have h1 : parseAfterScheme secure [c] = none := by
      unfold parseAfterScheme
      split
      · rename_i r heq
        simp at heq
      · rfl
    have h2 : parseAfterScheme secure [lowc c] = none := by
      unfold parseAfterScheme
      split
      · rename_i r heq
        simp at heq
      · rfl
    rw [List.map_cons, List.map_nil, h1, h2]
    rfl
  | c1 :: c2 :: r =>
    by_cases h : c1 = '/' ∧ c2 = '/'
    · obtain ⟨rfl, rfl⟩ := h
      simp only [List.map_cons]
      rw [show lowc '/' = '/' by decide]
      simp only [parseAfterScheme]
      rw [List.takeWhile_map, List.dropWhile_map,
        show (isAuthChar ∘ lowc) = isAuthChar from funext authChar_lowc,
        parseAuthority_map_lowc, pathOf_map_lowc]
      cases parseAuthority secure (r.takeWhile isAuthChar) <;> rfl
    · rw [List.map_cons, List.map_cons]
      rw [parseAfterScheme_no_slashes h secure r]
      rw [parseAfterScheme_no_slashes
        (fun he => h ⟨(lowc_eq_special (by decide)).mp he.1,
          (lowc_eq_special (by decide)).mp he.2⟩) secure (r.map lowc)]
      rfl

/-- Lower-casing a string commutes with parsing: same verdict, same
components, with the path lower-cased. -/
theorem parseChars_map_lowc (l : List Char) :
    parseChars (l.map lowc) =
      (parseChars l).map (fun m => { m with path := m.path.map lowc }) := by
  unfold parseChars
  rw [splitAtFirst_map_lowc (by decide)]
  cases hsp : splitAtFirst ':' l with
  | none => rfl
  | some p =>
    simp only [Option.map_some']
    rw [map_lowc_idem]
    by_cases h1 : p.1.map lowc = "http".data
    · rw [if_pos h1, if_pos h1]
      exact parseAfterScheme_map_lowc false p.2
    · rw [if_neg h1, if_neg h1]
      by_cases h2 : p.1.map lowc = "https".data
      · rw [if_pos h2, if_pos h2]
        exact parseAfterScheme_map_lowc true p.2
      · rw [if_neg h2, if_neg h2]
        rfl






/-! Claim C3: totality and fallback behaviour of domainKey. -/

/-- Claim C3 counterexample: on the unparsable input "a b", which does not
start with http, domainKey returns the prefixed string "http://a b", not
the raw input itself as the claim states. -/
theorem c3_domainKey_fallback_counterexample :
    domainKey "a b" = "http://a b" ∧ domainKey "a b" ≠ "a b" := by
  constructor
  · decide
  · decide

/-- Claim C3 amended: domainKey is total (never throws); the input is
parsed after being prefixed with http:// unless it already starts with
http; on success the result is the parsed hostname — already lower-cased
by the parser — with a single leading www. stripped, and in particular
domainKey "https://WWW.Example.com/x" = "example.com"; on parse failure
the result is the possibly-prefixed input, which coincides with the raw
input exactly when the input starts with http. -/
theorem c3_domainKey_total (s : String) :
    (∀ u, parseURL (domainKeyInput s) = some u →
      domainKey s = (if "www.".data.isPrefixOf u.host then ⟨u.host.drop 4⟩ else ⟨u.host⟩) ∧
      u.host.map lowc = u.host) ∧
    (parseURL (domainKeyInput s) = none → domainKey s = domainKeyInput s) ∧
    ("http".data.isPrefixOf s.data = true → domainKeyInput s = s) ∧
    domainKey "https://WWW.Example.com/x" = "example.com" := by
  refine ⟨?_, ?_, ?_, by decide⟩
  · intro u hu
    unfold domainKey
    rw [hu]
    exact ⟨rfl, (parse_inv hu).2.1⟩
  · intro hnone
    unfold domainKey
    rw [hnone]
  · intro hpre
    simp [domainKeyInput, hpre]

/-- Claim C3 witness: the amended theorem applied at the concrete inputs
"a b" (parse failure, prefixed fallback) and "https://WWW.Example.com/x". -/
theorem c3_domainKey_total_witness :
    domainKey "a b" = "http://a b" ∧ domainKey "https://WWW.Example.com/x" = "example.com" := by
  constructor
  · have h := (c3_domainKey_total "a b").2.1 (by decide)
    rw [h]
    decide
  · exact (c3_domainKey_total "a b").2.2.2

/-! Claim C9: idempotence of normalizeUrlForMatch. -/

theorem origin_lowc_fixed {u : URLm} (hInv : URLInv u) :
    (originChars u).map lowc = originChars u := by
  obtain ⟨_, hlow, _, hport, _, _⟩ := hInv
  unfold originChars
  rw [List.map_append, List.map_append]
  have h1 : (if u.secure then "https://".data else "http://".data).map lowc =
      (if u.secure then "https://".data else "http://".data) := by
    cases u.secure <;> decide
  rw [h1, hlow]
  cases hpo : u.port with
  | none => rfl
  | some d =>
    obtain ⟨_, hdig, _, _⟩ := hport d hpo
    simp only [List.map_cons]
    rw [show lowc ':' = ':' by decide, map_lowc_of_all_digits hdig]

theorem strip_no_slash_end {p : List Char}
    (h : ("//".data.isSuffixOf p) = false) :
    (stripTrailingSlash p).getLast? ≠ some '/' := by
  unfold stripTrailingSlash
  by_cases hl : p.getLast? = some '/'
  · rw [if_pos hl]
    obtain ⟨q, rfl⟩ := List.getLast?_eq_some_iff.mp hl
    rw [List.dropLast_concat]
    intro hq
    obtain ⟨q', rfl⟩ := List.getLast?_eq_some_iff.mp hq
    have hsuf : ("//".data.isSuffixOf (q' ++ ['/'] ++ ['/'])) = true := by
      rw [List.isSuffixOf_iff_suffix]
      refine ⟨q', ?_⟩
      simp
    rw [hsuf] at h
    exact absurd h (by simp)
  · rw [if_neg hl]
    exact hl

theorem strip_fixed_of_no_slash_end {p : List Char}
    (h : p.getLast? ≠ some '/') : stripTrailingSlash p = p := by
  unfold stripTrailingSlash
  rw [if_neg h]

theorem stripTrailingSlash_pre (p : List Char) : stripTrailingSlash p <+: p := by
  unfold stripTrailingSlash
  by_cases hl : p.getLast? = some '/'
  · rw [if_pos hl]
    exact List.dropLast_prefix p
  · rw [if_neg hl]

theorem normalize_of_parse {s : String} {u : URLm} (h : parseURL s = some u) :
    normalizeUrlForMatch s = ⟨(originChars u).map lowc ++ stripTrailingSlash u.path⟩ := by
  unfold normalizeUrlForMatch
  rw [h]

theorem normalize_of_parse_fail {s : String} (h : parseURL s = none) :
    normalizeUrlForMatch s = ⟨s.data.map lowc⟩ := by
  unfold normalizeUrlForMatch
  rw [h]

/-- Claim C9 counterexample: normalizeUrlForMatch is not idempotent; the
parsable input https://x.com/a-slash-slash normalizes to a form ending in
a single slash, which a second application strips again. -/
theorem c9_normalize_not_idempotent_counterexample :
    normalizeUrlForMatch "https://x.com/a//" = "https://x.com/a/" ∧
    normalizeUrlForMatch (normalizeUrlForMatch "https://x.com/a//") = "https://x.com/a" ∧
    normalizeUrlForMatch (normalizeUrlForMatch "https://x.com/a//") ≠
      normalizeUrlForMatch "https://x.com/a//" := by
  refine ⟨by decide, by decide, by decide⟩

/-- Claim C9 amended: normalizeUrlForMatch is idempotent on every string
that does not parse (the lower-cased fallback is stable), and on every
parsable URL whose pathname does not end with a double slash; the
counterexample shows the double-slash case genuinely fails. -/
theorem c9_normalize_idempotent_amended (s : String)
    (h : ∀ m, parseURL s = some m → ("//".data.isSuffixOf m.path) = false) :
    normalizeUrlForMatch (normalizeUrlForMatch s) = normalizeUrlForMatch s := by
  cases hp : parseURL s with
  | none =>
    rw [normalize_of_parse_fail hp]
    have houter : parseURL ⟨s.data.map lowc⟩ = none := by
      show parseChars (s.data.map lowc) = none
      rw [parseChars_map_lowc]
      rw [show parseChars s.data = none from hp]
      rfl
    rw [normalize_of_parse_fail houter]
    exact congrArg String.mk (map_lowc_idem s.data)
  | some m =>
    have hInv := parse_inv (show parseChars s.data = some m from hp)
    have hnn := h m hp
    have hinner : normalizeUrlForMatch s =
        ⟨originChars m ++ stripTrailingSlash m.path⟩ := by
      rw [normalize_of_parse hp, origin_lowc_fixed hInv]
    rw [hinner]
    obtain ⟨hne, hlow, hforb, hport, hpath, hpall⟩ := hInv
    -- the stripped path is a valid path extension
    have hpext : stripTrailingSlash m.path = [] ∨
        ((∃ r, stripTrailingSlash m.path = '/' :: r) ∧
          (stripTrailingSlash m.path).all isPathChar = true) := by
      cases hsp : stripTrailingSlash m.path with
      | nil => exact Or.inl rfl
      | cons c cs =>
        right
        constructor
        · obtain ⟨r, hr⟩ := hpath
          obtain ⟨t, ht⟩ := stripTrailingSlash_pre m.path
          rw [hsp, hr, List.cons_append] at ht
          have hc : c = '/' := (List.cons.inj ht).1
          exact ⟨cs, by rw [← hc]⟩
        · rw [List.all_eq_true] at hpall ⊢
          intro x hx
          exact hpall x ((stripTrailingSlash_pre m.path).sublist.mem (hsp ▸ hx))
    have hround := parse_roundtrip ⟨hne, hlow, hforb, hport, hpath, hpall⟩
      (stripTrailingSlash m.path) hpext
    rw [normalize_of_parse (show parseURL ⟨originChars m ++ stripTrailingSlash m.path⟩ =
        some ⟨m.secure, m.host, m.port,
          if (stripTrailingSlash m.path).isEmpty then ['/'] else stripTrailingSlash m.path⟩
      from hround)]
    apply congrArg String.mk
    have horig2 : originChars ⟨m.secure, m.host, m.port,
        if (stripTrailingSlash m.path).isEmpty then ['/'] else stripTrailingSlash m.path⟩ =
        originChars m := rfl
    rw [horig2, origin_lowc_fixed ⟨hne, hlow, hforb, hport, hpath, hpall⟩]
    congr 1
    -- the path of the reparse strips back to the same stripped path
    have hnoend : (stripTrailingSlash m.path).getLast? ≠ some '/' :=
      strip_no_slash_end hnn
    cases hsp : stripTrailingSlash m.path with
    | nil =>
      show stripTrailingSlash (if ([] : List Char).isEmpty = true then ['/'] else []) = []
      decide
    | cons c cs =>
      rw [if_neg (by simp)]
      rw [hsp] at hnoend
      exact strip_fixed_of_no_slash_end hnoend

/-- Claim C9 witness: the amended idempotence applied at the parsable
input https://x.com/a (pathname without the double slash) and at the
unparsable input "not a url". -/
theorem c9_normalize_idempotent_amended_witness :
    normalizeUrlForMatch (normalizeUrlForMatch "https://x.com/a") =
      normalizeUrlForMatch "https://x.com/a" ∧
    normalizeUrlForMatch (normalizeUrlForMatch "not a url") =
      normalizeUrlForMatch "not a url" := by
  constructor
  · exact c9_normalize_idempotent_amended "https://x.com/a" (by decide)
  · exact c9_normalize_idempotent_amended "not a url" (by decide)

/-! Claims C1 and C2: per-prompt likelihood, score formula, and the shape
of promptResults. -/

theorem likelihoodFor_iff (site : String) (r : WebSearchCallResult) :
    (likelihoodFor site r = 100 ↔ ∃ s ∈ r.sources,
      (normalizeUrlForMatch s = site ∨
        ((site ++ "/").data.isPrefixOf (normalizeUrlForMatch s).data) = true)) ∧
    (likelihoodFor site r = 100 ∨ likelihoodFor site r = 0) := by
  have hiff : ∀ s, urlMatches s site = true ↔
      (normalizeUrlForMatch s = site ∨
        ((site ++ "/").data.isPrefixOf (normalizeUrlForMatch s).data) = true) := by
    intro s
    show (normalizeUrlForMatch s == site ||
      (site ++ "/").data.isPrefixOf (normalizeUrlForMatch s).data) = true ↔ _
    rw [Bool.or_eq_true, beq_iff_eq]
  unfold likelihoodFor
  by_cases ha : r.sources.any (fun s => urlMatches s site) = true
  · rw [if_pos ha]
    refine ⟨⟨fun _ => ?_, fun _ => rfl⟩, Or.inl rfl⟩
    obtain ⟨s, hs, hm⟩ := List.any_eq_true.mp ha
    exact ⟨s, hs, (hiff s).mp hm⟩
  · rw [if_neg ha]
    refine ⟨⟨fun hc => absurd hc (by decide), fun he => ?_⟩, Or.inr rfl⟩
    obtain ⟨s, hs, hm⟩ := he
    exact absurd (List.any_eq_true.mpr ⟨s, hs, (hiff s).mpr hm⟩) ha

theorem filter100_length_of_const {β : Type} (f : β → PromptResult) (l : List β)
    (b : Bool) (h : ∀ a, ((f a).apparitionLikelihood == 100) = b) :
    ((l.map f).filter (fun pr => pr.apparitionLikelihood == 100)).length =
      if b = true then l.length else 0 := by
  induction l with
  | nil => cases b <;> simp
  | cons x xs ih =>
    rw [List.map_cons, List.filter_cons, h x]
    cases b
    · rw [if_neg Bool.false_ne_true, if_neg Bool.false_ne_true]
      rw [if_neg Bool.false_ne_true] at ih
      exact ih
    · rw [if_pos rfl, if_pos rfl]
      rw [if_pos rfl] at ih
      simp [ih]

theorem appeared_eq_filter_count (url : String) (results : List WebSearchCallResult) :
    promptsWhereSiteAppearedOf url results =
      ((promptResultsOf url results).filter
        (fun pr => pr.apparitionLikelihood == 100)).length := by
  unfold promptsWhereSiteAppearedOf promptResultsOf
  suffices h : ∀ n, results.foldl
      (fun acc r =>
        acc + (if likelihoodFor (normalizeUrlForMatch url) r = 100
          then r.internalPrompts.length else 0)) n =
      n + ((results.flatMap (fun r =>
        r.internalPrompts.map (fun p =>
          (⟨p, likelihoodFor (normalizeUrlForMatch url) r,
            groupSources r.sources⟩ : PromptResult)))).filter
              (fun pr => pr.apparitionLikelihood == 100)).length by
    have := h 0
    simpa using this
  induction results with
  | nil => simp
  | cons r rs ih =>
    intro n
    rw [List.foldl_cons, List.flatMap_cons, List.filter_append, List.length_append]
    rw [ih]
    rw [filter100_length_of_const
      (fun p => (⟨p, likelihoodFor (normalizeUrlForMatch url) r,
        groupSources r.sources⟩ : PromptResult))
      r.internalPrompts
      (likelihoodFor (normalizeUrlForMatch url) r == 100)
      (fun a => rfl)]
    by_cases hl : likelihoodFor (normalizeUrlForMatch url) r = 100
    · rw [if_pos hl, if_pos (show (likelihoodFor (normalizeUrlForMatch url) r == 100) = true
        by simp [hl])]
      omega
    · rw [if_neg hl, if_neg (show ¬ ((likelihoodFor (normalizeUrlForMatch url) r == 100) = true)
        by simp [hl])]
      omega

theorem promptResults_proj (url : String) (gps : List String)
    (results : List WebSearchCallResult) (nps : Nat) (o : ClassifierOutcome) :
    (runGeoScorePipeline url gps results nps o).promptResults.map
        (fun pr => (pr.prompt, pr.apparitionLikelihood)) =
      (promptResultsOf url results).map (fun pr => (pr.prompt, pr.apparitionLikelihood)) := by
  show ((promptResultsOf url results).map _).map _ = _
  rw [List.map_map]
  apply List.map_congr_left
  intro pr _
  rfl

theorem filter100_length_assign (catMap : List (String × SourceCategory))
    (l : List PromptResult) :
    ((l.map (fun pr => { pr with sources := assignCats catMap pr.sources })).filter
        (fun pr => pr.apparitionLikelihood == 100)).length =
      (l.filter (fun pr => pr.apparitionLikelihood == 100)).length := by
  induction l with
  | nil => rfl
  | cons x xs ih =>
    rw [List.map_cons, List.filter_cons, List.filter_cons]
    by_cases hx : (x.apparitionLikelihood == 100) = true
    · rw [if_pos hx,
        if_pos (show ((({ x with sources := assignCats catMap x.sources } :
          PromptResult).apparitionLikelihood == 100) = true) from hx)]
      rw [List.length_cons, List.length_cons, ih]
    · rw [if_neg hx,
        if_neg (show ¬ ((({ x with sources := assignCats catMap x.sources } :
          PromptResult).apparitionLikelihood == 100) = true) from hx)]
      exact ih

/-- Claim C1: per prompt, the apparition likelihood is 100 exactly when
some cited URL matches the normalized target (equality or extension at a
path boundary), and is otherwise 0; each PromptResult entry carries its
call's likelihood; and the overall score is the rounded percentage of
entries at likelihood 100 over all entries, 0 when there are none. -/
theorem c1_likelihood_and_score (url : String) (gps : List String)
    (results : List WebSearchCallResult) (nps : Nat) (o : ClassifierOutcome) :
    (∀ r ∈ results,
      (likelihoodFor (normalizeUrlForMatch url) r = 100 ↔ ∃ s ∈ r.sources,
        (normalizeUrlForMatch s = normalizeUrlForMatch url ∨
          ((normalizeUrlForMatch url ++ "/").data.isPrefixOf
            (normalizeUrlForMatch s).data) = true)) ∧
      (likelihoodFor (normalizeUrlForMatch url) r = 100 ∨
        likelihoodFor (normalizeUrlForMatch url) r = 0)) ∧
    ((runGeoScorePipeline url gps results nps o).promptResults.map
        (fun pr => (pr.prompt, pr.apparitionLikelihood)) =
      results.flatMap (fun r => r.internalPrompts.map
        (fun p => (p, likelihoodFor (normalizeUrlForMatch url) r)))) ∧
    ((runGeoScorePipeline url gps results nps o).score =
      if (runGeoScorePipeline url gps results nps o).promptResults.length = 0 then 0
      else jsRound
        (100 * ((runGeoScorePipeline url gps results nps o).promptResults.filter
            (fun pr => pr.apparitionLikelihood == 100)).length)
        (runGeoScorePipeline url gps results nps o).promptResults.length) := by
  refine ⟨fun r _ => likelihoodFor_iff (normalizeUrlForMatch url) r, ?_, ?_⟩
  · rw [promptResults_proj]
    unfold promptResultsOf
    rw [List.map_flatMap]
    apply congrArg (List.flatMap results)
    funext r
    rw [List.map_map]
    apply List.map_congr_left
    intro p _
    rfl
  · have hpr : (runGeoScorePipeline url gps results nps o).promptResults =
        (promptResultsOf url results).map
          (fun pr => { pr with
            sources := assignCats
              (classifyDomains (uniqueDomainsOf url results) o) pr.sources }) := rfl
    have hsc : (runGeoScorePipeline url gps results nps o).score = scoreOf url results := rfl
    rw [hsc, hpr, List.length_map, filter100_length_assign]
    unfold scoreOf
    rw [appeared_eq_filter_count]

/-- Claim C1 witness: the spec's own two-prompt scenario, prompt A citing
a target page and prompt B citing only another site: likelihood 100 for
the first call and an overall score of 50. -/
theorem c1_likelihood_and_score_witness :
    likelihoodFor (normalizeUrlForMatch "https://target.com")
      ⟨["q"], ["https://target.com/page"]⟩ = 100 ∧
    (runGeoScorePipeline "https://target.com" ["pA", "pB"]
      [⟨["q"], ["https://target.com/page"]⟩, ⟨["q2"], ["https://other.com"]⟩]
      10 .callFailure).score = 50 := by
  constructor
  · exact ((c1_likelihood_and_score "https://target.com" ["pA", "pB"]
      [⟨["q"], ["https://target.com/page"]⟩, ⟨["q2"], ["https://other.com"]⟩]
      10 .callFailure).1 ⟨["q"], ["https://target.com/page"]⟩ (by decide)).1.mpr
      ⟨"https://target.com/page", by decide, by decide⟩
  · have h := (c1_likelihood_and_score "https://target.com" ["pA", "pB"]
      [⟨["q"], ["https://target.com/page"]⟩, ⟨["q2"], ["https://other.com"]⟩]
      10 .callFailure).2.2
    rw [h]
    decide

/-- Claim C2 counterexample: a run with one generated prompt whose search
call reports two internal queries produces two PromptResult entries, not
one per generated prompt. -/
theorem c2_one_per_prompt_counterexample :
    (runGeoScorePipeline "https://t.com" ["p"] [⟨["q1", "q2"], []⟩]
      10 .callFailure).promptResults.length = 2 ∧
    ¬ ((runGeoScorePipeline "https://t.com" ["p"] [⟨["q1", "q2"], []⟩]
      10 .callFailure).promptResults.length = (["p"] : List String).length) := by
  constructor
  · decide
  · decide

/-- Claim C2 amended: promptResults holds one entry per internal query
reported by the search calls, in call order (the prompts of the entries
are exactly the concatenation of the calls' internal query lists), and
every entry's apparitionLikelihood is 0 or 100, never an intermediate
value. -/
theorem c2_promptResults_shape (url : String) (gps : List String)
    (results : List WebSearchCallResult) (nps : Nat) (o : ClassifierOutcome) :
    ((runGeoScorePipeline url gps results nps o).promptResults.map
        (fun pr => pr.prompt) =
      results.flatMap (fun r => r.internalPrompts)) ∧
    (∀ pr ∈ (runGeoScorePipeline url gps results nps o).promptResults,
      pr.apparitionLikelihood = 0 ∨ pr.apparitionLikelihood = 100) := by
  have hpr : (runGeoScorePipeline url gps results nps o).promptResults =
      (promptResultsOf url results).map
        (fun pr => { pr with
          sources := assignCats
            (classifyDomains (uniqueDomainsOf url results) o) pr.sources }) := rfl
  constructor
  · rw [hpr, List.map_map]
    unfold promptResultsOf
    rw [List.map_flatMap]
    apply congrArg (List.flatMap results)
    funext r
    rw [List.map_map]
    exact Eq.trans (List.map_congr_left (fun p _ => rfl)) (List.map_id' _)
  · intro pr hmem
    rw [hpr] at hmem
    obtain ⟨pr0, hpr0, rfl⟩ := List.mem_map.mp hmem
    obtain ⟨r, _, hp⟩ := List.mem_flatMap.mp hpr0
    obtain ⟨p, _, rfl⟩ := List.mem_map.mp hp
    show likelihoodFor (normalizeUrlForMatch url) r = 0 ∨
      likelihoodFor (normalizeUrlForMatch url) r = 100
    rcases (likelihoodFor_iff (normalizeUrlForMatch url) r).2 with h | h
    · exact Or.inr h
    · exact Or.inl h

/-- Claim C2 witness: the amended shape applied at a concrete run with two
calls reporting two and one internal queries. -/
theorem c2_promptResults_shape_witness :
    ((runGeoScorePipeline "https://t.com" ["pA", "pB"]
        [⟨["q1", "q2"], ["https://t.com/x"]⟩, ⟨["q3"], []⟩]
        10 .callFailure).promptResults.map (fun pr => pr.prompt) =
      ["q1", "q2", "q3"]) ∧
    (∀ pr ∈ (runGeoScorePipeline "https://t.com" ["pA", "pB"]
        [⟨["q1", "q2"], ["https://t.com/x"]⟩, ⟨["q3"], []⟩]
        10 .callFailure).promptResults,
      pr.apparitionLikelihood = 0 ∨ pr.apparitionLikelihood = 100) := by
  have h := c2_promptResults_shape "https://t.com" ["pA", "pB"]
    [⟨["q1", "q2"], ["https://t.com/x"]⟩, ⟨["q3"], []⟩] 10 .callFailure
  exact ⟨h.1, h.2⟩

/-! Claim C5: classification failure is fully recovered. -/

def setOtherCat (s : SourcesByDomain) : SourcesByDomain :=
  { s with category := SourceCategory.other }

/-- A result with every category (global and per-prompt) masked to other:
two runs agreeing after masking differ at most in categories. -/
def eraseCats (g : GeoScoreResult) : GeoScoreResult :=
  { g with
    sources := g.sources.map setOtherCat
    promptResults := g.promptResults.map (fun pr =>
      { pr with sources := pr.sources.map setOtherCat }) }

theorem eraseCats_assign (m : List (String × SourceCategory))
    (srcs : List SourcesByDomain) :
    (assignCats m srcs).map setOtherCat = srcs.map setOtherCat := by
  unfold assignCats
  rw [List.map_map]
  apply List.map_congr_left
  intro s _
  rfl

theorem eraseCats_pipeline_const (url : String) (gps : List String)
    (results : List WebSearchCallResult) (nps : Nat) (o o' : ClassifierOutcome) :
    eraseCats (runGeoScorePipeline url gps results nps o) =
      eraseCats (runGeoScorePipeline url gps results nps o') := by
  unfold eraseCats runGeoScorePipeline
  simp only []
  rw [eraseCats_assign, eraseCats_assign]
  rw [List.map_map, List.map_map]
  congr 1
  apply List.map_congr_left
  intro pr _
  show ({ pr with sources := (assignCats
      (classifyDomains (uniqueDomainsOf url results) o) pr.sources).map setOtherCat } :
        PromptResult) = _
  rw [eraseCats_assign, ← eraseCats_assign (classifyDomains (uniqueDomainsOf url results) o')]
  rfl

/-- Claim C5: classifyDomains returns the empty map for an empty domain
list regardless of the call outcome (so no external call can influence the
result), and the empty map on any call failure or unusable response body;
with the empty map the caller's category assignment defaults every domain
to other; and the classifier outcome can change only categories — after
masking categories, the whole pipeline result, score included, is
identical across outcomes. -/
theorem c5_classification_failure_recovered :
    (∀ o, classifyDomains [] o = []) ∧
    (∀ ds, classifyDomains ds .callFailure = []) ∧
    (∀ ds, classifyDomains ds .emptyContent = []) ∧
    (∀ url gps results nps o o',
      eraseCats (runGeoScorePipeline url gps results nps o) =
        eraseCats (runGeoScorePipeline url gps results nps o') ∧
      (runGeoScorePipeline url gps results nps o).score =
        (runGeoScorePipeline url gps results nps o').score) ∧
    (∀ url gps results nps,
      (∀ s ∈ (runGeoScorePipeline url gps results nps .callFailure).sources,
        s.category = SourceCategory.other) ∧
      (∀ pr ∈ (runGeoScorePipeline url gps results nps .callFailure).promptResults,
        ∀ s ∈ pr.sources, s.category = SourceCategory.other)) := by
  have hempty : ∀ ds (o : ClassifierOutcome),
      (o = ClassifierOutcome.callFailure ∨ o = ClassifierOutcome.emptyContent) →
      classifyDomains ds o = [] := by
    intro ds o ho
    unfold classifyDomains
    by_cases hd : ds.isEmpty = true
    · rw [if_pos hd]
    · rw [if_neg hd]
      rcases ho with rfl | rfl <;> rfl
  have hother : ∀ (srcs : List SourcesByDomain), ∀ s ∈ assignCats [] srcs,
      s.category = SourceCategory.other := by
    intro srcs s hs
    obtain ⟨s0, _, rfl⟩ := List.mem_map.mp hs
    rfl
  refine ⟨fun o => rfl, fun ds => hempty ds _ (Or.inl rfl), fun ds => hempty ds _ (Or.inr rfl),
    fun url gps results nps o o' =>
      ⟨eraseCats_pipeline_const url gps results nps o o', rfl⟩, ?_⟩
  intro url gps results nps
  have hcm : classifyDomains (uniqueDomainsOf url results) .callFailure = [] :=
    hempty _ _ (Or.inl rfl)
  constructor
  · intro s hs
    have hsrc : (runGeoScorePipeline url gps results nps .callFailure).sources =
        assignCats [] (groupSources (results.flatMap (fun r => r.sources))) := by
      show assignCats (classifyDomains (uniqueDomainsOf url results) .callFailure) _ = _
      rw [hcm]
    rw [hsrc] at hs
    exact hother _ s hs
  · intro pr hpr s hs
    have hprs : (runGeoScorePipeline url gps results nps .callFailure).promptResults =
        (promptResultsOf url results).map
          (fun pr => { pr with sources := assignCats [] pr.sources }) := by
      show (promptResultsOf url results).map _ = _
      rw [hcm]
    rw [hprs] at hpr
    obtain ⟨pr0, _, rfl⟩ := List.mem_map.mp hpr
    exact hother _ s hs

/-- Claim C5 witness: the recovery facts applied at a concrete run with a
failing classifier call: the category map is empty, every reported
category is other, and the score is the same as under a successful
classification. -/
theorem c5_classification_failure_recovered_witness :
    classifyDomains ["t.com"] .callFailure = [] ∧
    (∀ s ∈ (runGeoScorePipeline "https://t.com" ["p"] [⟨["q"], ["https://t.com/x"]⟩]
      10 .callFailure).sources, s.category = SourceCategory.other) ∧
    (runGeoScorePipeline "https://t.com" ["p"] [⟨["q"], ["https://t.com/x"]⟩]
        10 .callFailure).score =
      (runGeoScorePipeline "https://t.com" ["p"] [⟨["q"], ["https://t.com/x"]⟩]
        10 (.parsed [("t.com", "shopping")])).score := by
  refine ⟨c5_classification_failure_recovered.2.1 ["t.com"], ?_, ?_⟩
  · exact (c5_classification_failure_recovered.2.2.2.2 "https://t.com" ["p"]
      [⟨["q"], ["https://t.com/x"]⟩] 10).1
  · exact (c5_classification_failure_recovered.2.2.2.1 "https://t.com" ["p"]
      [⟨["q"], ["https://t.com/x"]⟩] 10 .callFailure (.parsed [("t.com", "shopping")])).2

/-! Claim C6: the all-or-nothing fan-out join. -/

theorem searchAll_nil (call : String → Except String WebSearchCallResult) :
    searchAll call [] = .ok [] := rfl

theorem searchAll_cons (call : String → Except String WebSearchCallResult)
    (p : String) (ps : List String) :
    searchAll call (p :: ps) =
      match call p with
      | .error e => .error e
      | .ok r =>
        match searchAll call ps with
        | .error e => .error e
        | .ok rs => .ok (r :: rs) := by
  unfold searchAll
  rw [List.mapM_cons]
  cases call p with
  | error e => rfl
  | ok r =>
    cases List.mapM call ps with
    | error e => rfl
    | ok rs => rfl

/-- Claim C6: the fan-out joined by Promise.all is all-or-nothing: a
success returns exactly one result per prompt, in input order, each the
result of its own prompt's call; if any call fails no result list is
produced, and the join rejects with the error of the failing call (the
first one in join order); the whole pipeline then surfaces exactly that
error with no partial result. -/
theorem c6_failfast_join (call : String → Except String WebSearchCallResult)
    (ps : List String) :
    (∀ rs, searchAll call ps = .ok rs →
      rs.length = ps.length ∧ List.Forall₂ (fun p r => call p = .ok r) ps rs) ∧
    ((∃ p ∈ ps, ∀ r, call p ≠ .ok r) → ∃ e, searchAll call ps = .error e) ∧
    (∀ ps1 p ps2 e, ps = ps1 ++ p :: ps2 → (∀ q ∈ ps1, ∃ r, call q = .ok r) →
      call p = .error e → searchAll call ps = .error e) ∧
    (∀ url nps o e, searchAll call ps = .error e →
      runGeoScorePipelineE url ps nps o call = .error e) := by
  refine ⟨?_, ?_, ?_, ?_⟩
  · induction ps with
    | nil =>
      intro rs h
      rw [searchAll_nil] at h
      cases h
      exact ⟨rfl, List.Forall₂.nil⟩
    | cons q qs ih =>
      intro rs h
      rw [searchAll_cons] at h
      cases hc : call q with
      | error e => rw [hc] at h; exact absurd h (by simp)
      | ok r =>
        rw [hc] at h
        cases hs : searchAll call qs with
        | error e => rw [hs] at h; exact absurd h (by simp)
        | ok rs' =>
          rw [hs] at h
          cases h
          obtain ⟨hl, hf⟩ := ih rs' hs
          exact ⟨by simp [hl], List.Forall₂.cons hc hf⟩
  · induction ps with
    | nil =>
      intro hex
      obtain ⟨p, hp, _⟩ := hex
      simp at hp
    | cons q qs ih =>
      intro hex
      rw [searchAll_cons]
      cases hc : call q with
      | error e => exact ⟨e, rfl⟩
      | ok r =>
        obtain ⟨p, hp, hfail⟩ := hex
        rcases List.mem_cons.mp hp with rfl | hmem
        · exact absurd hc (hfail r)
        · obtain ⟨e, hse⟩ := ih ⟨p, hmem, hfail⟩
          rw [hse]
          exact ⟨e, rfl⟩
  · intro ps1 p ps2 e hps hok hcall
    subst hps
    induction ps1 with
    | nil =>
      rw [List.nil_append, searchAll_cons, hcall]
    | cons q qs1 ih =>
      rw [List.cons_append, searchAll_cons]
      obtain ⟨r, hr⟩ := hok q (by simp)
      rw [hr, ih (fun q2 hq2 => hok q2 (by simp [hq2]))]
  · intro url nps o e hse
    cases ps with
    | nil =>
      rw [searchAll_nil] at hse
      exact absurd hse (by simp)
    | cons q qs =>
      unfold runGeoScorePipelineE
      rw [if_neg (by simp)]
      rw [hse]

/-- Claim C6 witness: a concrete fan-out where the second prompt's call
fails: the join and the whole pipeline reject with that error, while the
all-success run returns one result per prompt in order. -/
theorem c6_failfast_join_witness :
    searchAll (fun p => if p = "bad" then .error "boom" else .ok ⟨[p], []⟩)
      ["good", "bad"] = .error "boom" ∧
    runGeoScorePipelineE "https://t.com" ["good", "bad"] 10 .callFailure
      (fun p => if p = "bad" then .error "boom" else .ok ⟨[p], []⟩) = .error "boom" ∧
    (∀ rs, searchAll (fun p => if p = "bad" then .error "boom" else .ok ⟨[p], []⟩)
      ["good", "fine"] = .ok rs → rs.length = 2) := by
  have hjoin := (c6_failfast_join
    (fun p => if p = "bad" then .error "boom" else .ok ⟨[p], []⟩) ["good", "bad"]).2.2.1
    ["good"] "bad" [] "boom" rfl
    (fun q hq => by
      rcases List.mem_singleton.mp hq with rfl
      exact ⟨⟨["good"], []⟩, rfl⟩)
    rfl
  refine ⟨hjoin, ?_, ?_⟩
  · exact (c6_failfast_join
      (fun p => if p = "bad" then .error "boom" else .ok ⟨[p], []⟩) ["good", "bad"]).2.2.2
      "https://t.com" 10 .callFailure "boom" hjoin
  · intro rs hrs
    have h := ((c6_failfast_join
      (fun p => if p = "bad" then .error "boom" else .ok ⟨[p], []⟩) ["good", "fine"]).1
      rs hrs).1
    simpa using h

/-! Claims C4, C8, C10: structure of groupSources. -/

theorem bump_keys (u : String) (m : List (String × Nat)) :
    (bump u m).map Prod.fst =
      if u ∈ m.map Prod.fst then m.map Prod.fst else m.map Prod.fst ++ [u] := by
  induction m with
  | nil => simp [bump]
  | cons kv rest ih =>
    obtain ⟨k, c⟩ := kv
    simp only [bump]
    by_cases hk : k = u
    · subst hk
      rw [if_pos rfl]
      simp
    · rw [if_neg hk]
      simp only [List.map_cons, ih]
      by_cases hm : u ∈ rest.map Prod.fst
      · rw [if_pos hm, if_pos (List.mem_cons.mpr (Or.inr hm))]
      · rw [if_neg hm, if_neg (show u ∉ k :: rest.map Prod.fst by
          simp only [List.mem_cons, not_or]
          exact ⟨fun h => hk h.symm, hm⟩)]
        rfl

theorem bump_counts (u : String) (m : List (String × Nat))
    (h : ∀ kv ∈ m, 1 ≤ kv.2) : ∀ kv ∈ bump u m, 1 ≤ kv.2 := by
  induction m with
  | nil =>
    intro kv hkv
    rw [show bump u [] = [(u, 1)] from rfl] at hkv
    rcases List.mem_singleton.mp hkv with rfl
    exact Nat.le_refl 1
  | cons kv0 rest ih =>
    obtain ⟨k, c⟩ := kv0
    intro kv hkv
    simp only [bump] at hkv
    by_cases hk : k = u
    · rw [if_pos hk] at hkv
      rcases List.mem_cons.mp hkv with rfl | hkv2
      · simp
      · exact h _ (List.mem_cons.mpr (Or.inr hkv2))
    · rw [if_neg hk] at hkv
      rcases List.mem_cons.mp hkv with rfl | hkv2
      · exact h (k, c) (List.mem_cons.mpr (Or.inl rfl))
      · exact ih (fun kv2 hkv2b => h kv2 (List.mem_cons.mpr (Or.inr hkv2b))) kv hkv2

theorem countByUrl_inv (urls : List String) :
    ((countByUrl urls).map Prod.fst).Nodup ∧
    (∀ kv ∈ countByUrl urls, 1 ≤ kv.2) ∧
    (∀ k, k ∈ (countByUrl urls).map Prod.fst ↔ k ∈ urls) := by
  suffices h : ∀ (m : List (String × Nat)), (m.map Prod.fst).Nodup →
      (∀ kv ∈ m, 1 ≤ kv.2) →
      ((urls.foldl (fun m2 u => bump u m2) m).map Prod.fst).Nodup ∧
      (∀ kv ∈ urls.foldl (fun m2 u => bump u m2) m, 1 ≤ kv.2) ∧
      (∀ k, k ∈ (urls.foldl (fun m2 u => bump u m2) m).map Prod.fst ↔
        k ∈ m.map Prod.fst ∨ k ∈ urls) by
    obtain ⟨h1, h2, h3⟩ := h [] (by simp) (by simp)
    exact ⟨h1, h2, fun k => by simpa using h3 k⟩
  induction urls with
  | nil =>
    intro m hnd hc
    simp only [List.foldl_nil]
    exact ⟨hnd, hc, fun k => by simp⟩
  | cons u us ih =>
    intro m hnd hc
    rw [List.foldl_cons]
    have hnd2 : ((bump u m).map Prod.fst).Nodup := by
      rw [bump_keys]
      by_cases hm : u ∈ m.map Prod.fst
      · rw [if_pos hm]; exact hnd
      · rw [if_neg hm]
        rw [List.nodup_append]
        exact ⟨hnd, by simp, by simp [hm, List.disjoint_singleton]⟩
    obtain ⟨h1, h2, h3⟩ := ih (bump u m) hnd2 (bump_counts u m hc)
    refine ⟨h1, h2, fun k => ?_⟩
    rw [h3 k, bump_keys]
    by_cases hm : u ∈ m.map Prod.fst
    · rw [if_pos hm]
      constructor
      · rintro (hk | hk)
        · exact Or.inl hk
        · exact Or.inr (by simp [hk])
      · rintro (hk | hk)
        · exact Or.inl hk
        · rcases List.mem_cons.mp hk with rfl | hk2
          · exact Or.inl hm
          · exact Or.inr hk2
    · rw [if_neg hm]
      constructor
      · rintro (hk | hk)
        · rcases List.mem_append.mp hk with hk2 | hk2
          · exact Or.inl hk2
          · exact Or.inr (List.mem_cons.mpr (Or.inl (List.mem_singleton.mp hk2)))
        · exact Or.inr (List.mem_cons.mpr (Or.inr hk))
      · rintro (hk | hk)
        · exact Or.inl (List.mem_append.mpr (Or.inl hk))
        · rcases List.mem_cons.mp hk with rfl | hk2
          · exact Or.inl (List.mem_append.mpr (Or.inr (by simp)))
          · exact Or.inr hk2

def allUrls (acc : List DomAcc) : List String := acc.flatMap (fun e => e.urls)

def DomEntryInv (e : DomAcc) : Prop :=
  e.urls ≠ [] ∧ e.urls.Nodup ∧ e.urls.length ≤ e.count ∧ ∀ u ∈ e.urls, domainKey u = e.domain

/-- Invariant of the byDomain accumulator: distinct domains, well-formed
entries, and no URL listed twice anywhere. -/
def DomInv (acc : List DomAcc) : Prop :=
  (acc.map (fun e => e.domain)).Nodup ∧ (∀ e ∈ acc, DomEntryInv e) ∧ (allUrls acc).Nodup

theorem addDom_inv {d u : String} {c : Nat} {acc : List DomAcc}
    (hinv : DomInv acc) (hd : domainKey u = d) (hc : 1 ≤ c) :
    DomInv (addDom d u c acc) ∧
    (∀ x, x ∈ allUrls (addDom d u c acc) ↔ x ∈ allUrls acc ∨ x = u) ∧
    (∀ k, k ∈ (addDom d u c acc).map (fun e => e.domain) ↔
      k ∈ acc.map (fun e => e.domain) ∨ k = d) := by
  induction acc with
  | nil =>
    refine ⟨⟨by simp [addDom], ?_, by simp [allUrls, addDom]⟩, ?_, ?_⟩
    · intro e he
      rw [show addDom d u c [] = [⟨d, c, [u]⟩] from rfl] at he
      rcases List.mem_singleton.mp he with rfl
      exact ⟨by simp, by simp, by simpa using hc, by simpa using hd⟩
    · intro x
      simp [allUrls, addDom]
    · intro k
      simp [addDom, eq_comm]
  | cons e es ih =>
    obtain ⟨hnd, hent, hurls⟩ := hinv
    rw [List.map_cons, List.nodup_cons] at hnd
    have hurls2 : (e.urls ++ allUrls es).Nodup := hurls
    rw [List.nodup_append] at hurls2
    obtain ⟨heu, hesu, hdisj⟩ := hurls2
    by_cases hed : e.domain = d
    · rw [show addDom d u c (e :: es) =
        ⟨e.domain, e.count + c, if u ∈ e.urls then e.urls else e.urls ++ [u]⟩ :: es by
          simp only [addDom]; rw [if_pos hed]]
      have hein := hent e (by simp)
      obtain ⟨hene, hend, henl, henk⟩ := hein
      have hnotin : u ∉ allUrls es := by
        intro hu
        obtain ⟨f, hf, huf⟩ := List.mem_flatMap.mp hu
        have hfd : domainKey u = f.domain := (hent f (by simp [hf])).2.2.2 u huf
        exact hnd.1 (by
          rw [List.mem_map]
          exact ⟨f, hf, by rw [← hfd, hd, hed]⟩)
      refine ⟨⟨?_, ?_, ?_⟩, ?_, ?_⟩
      · rw [List.map_cons, List.nodup_cons]
        exact hnd
      · intro f hf
        rcases List.mem_cons.mp hf with rfl | hf2
        · refine ⟨?_, ?_, ?_, ?_⟩
          · show (if u ∈ e.urls then e.urls else e.urls ++ [u]) ≠ []
            by_cases hu : u ∈ e.urls
            · rw [if_pos hu]; exact hene
            · rw [if_neg hu]; simp
          · show (if u ∈ e.urls then e.urls else e.urls ++ [u]).Nodup
            by_cases hu : u ∈ e.urls
            · rw [if_pos hu]; exact hend
            · rw [if_neg hu]
              rw [List.nodup_append]
              exact ⟨hend, by simp, by simp [List.disjoint_singleton, hu]⟩
          · show (if u ∈ e.urls then e.urls else e.urls ++ [u]).length ≤ e.count + c
            by_cases hu : u ∈ e.urls
            · rw [if_pos hu]; exact Nat.le_trans henl (Nat.le_add_right _ _)
            · rw [if_neg hu]
              rw [List.length_append]
              simp only [List.length_singleton]
              omega
          · intro v hv
            show domainKey v = e.domain
            have hv2 : v ∈ (if u ∈ e.urls then e.urls else e.urls ++ [u]) := hv
            by_cases hu : u ∈ e.urls
            · rw [if_pos hu] at hv2
              exact henk v hv2
            · rw [if_neg hu] at hv2
              rcases List.mem_append.mp hv2 with hv3 | hv3
              · exact henk v hv3
              · rw [List.mem_singleton.mp hv3]
                rw [hd, hed]
        · exact hent f (by simp [hf2])
      · show ((if u ∈ e.urls then e.urls else e.urls ++ [u]) ++ allUrls es).Nodup
        by_cases hu : u ∈ e.urls
        · rw [if_pos hu]
          exact hurls
        · rw [if_neg hu]
          rw [List.append_assoc, List.nodup_append]
          refine ⟨hend, ?_, ?_⟩
          · rw [List.nodup_append]
            exact ⟨by simp, hesu, by simp [hnotin]⟩
          · intro x hx hx2
            rcases List.mem_append.mp hx2 with h3 | h3
            · exact hu (List.mem_singleton.mp h3 ▸ hx)
            · exact hdisj hx h3
      · intro x
        show x ∈ (if u ∈ e.urls then e.urls else e.urls ++ [u]) ++ allUrls es ↔
          x ∈ e.urls ++ allUrls es ∨ x = u
        by_cases hu : u ∈ e.urls
        · rw [if_pos hu]
          constructor
          · exact fun h => Or.inl h
          · rintro (h | rfl)
            · exact h
            · exact List.mem_append.mpr (Or.inl hu)
        · rw [if_neg hu]
          constructor
          · intro h
            rcases List.mem_append.mp h with h2 | h2
            · rcases List.mem_append.mp h2 with h3 | h3
              · exact Or.inl (List.mem_append.mpr (Or.inl h3))
              · exact Or.inr (List.mem_singleton.mp h3)
            · exact Or.inl (List.mem_append.mpr (Or.inr h2))
          · rintro (h | rfl)
            · rcases List.mem_append.mp h with h2 | h2
              · exact List.mem_append.mpr (Or.inl (List.mem_append.mpr (Or.inl h2)))
              · exact List.mem_append.mpr (Or.inr h2)
            · exact List.mem_append.mpr (Or.inl (List.mem_append.mpr (Or.inr (by simp))))
      · intro k
        rw [List.map_cons, List.map_cons]
        constructor
        · intro h
          rcases List.mem_cons.mp h with rfl | h2
          · exact Or.inl (by simp)
          · exact Or.inl (by simp [h2])
        · rintro (h | rfl)
          · rcases List.mem_cons.mp h with rfl | h2
            · exact List.mem_cons.mpr (Or.inl rfl)
            · exact List.mem_cons.mpr (Or.inr h2)
          · exact List.mem_cons.mpr (Or.inl hed.symm)
    · rw [show addDom d u c (e :: es) = e :: addDom d u c es by
        simp only [addDom]; rw [if_neg hed]]
      have hesinv : DomInv es := ⟨hnd.2, fun f hf => hent f (by simp [hf]), hesu⟩
      obtain ⟨⟨ihnd, ihent, ihurls⟩, ihmem, ihdom⟩ := ih hesinv
      have hnotine : u ∉ e.urls :=
        fun hu => hed (((hent e (by simp)).2.2.2 u hu).symm.trans hd)
      refine ⟨⟨?_, ?_, ?_⟩, ?_, ?_⟩
      · rw [List.map_cons, List.nodup_cons]
        refine ⟨?_, ihnd⟩
        intro hmem2
        rcases (ihdom e.domain).mp hmem2 with h2 | h2
        · exact hnd.1 h2
        · exact hed h2
      · intro f hf
        rcases List.mem_cons.mp hf with rfl | hf2
        · exact hent f (by simp)
        · exact ihent f hf2
      · show (e.urls ++ allUrls (addDom d u c es)).Nodup
        rw [List.nodup_append]
        refine ⟨heu, ihurls, ?_⟩
        intro x hx hx2
        rcases (ihmem x).mp hx2 with h2 | rfl
        · exact hdisj hx h2
        · exact hnotine hx
      · intro x
        show x ∈ e.urls ++ allUrls (addDom d u c es) ↔ x ∈ e.urls ++ allUrls es ∨ x = u
        constructor
        · intro h
          rcases List.mem_append.mp h with h2 | h2
          · exact Or.inl (List.mem_append.mpr (Or.inl h2))
          · rcases (ihmem x).mp h2 with h3 | rfl
            · exact Or.inl (List.mem_append.mpr (Or.inr h3))
            · exact Or.inr rfl
        · rintro (h | rfl)
          · rcases List.mem_append.mp h with h2 | h2
            · exact List.mem_append.mpr (Or.inl h2)
            · exact List.mem_append.mpr (Or.inr ((ihmem x).mpr (Or.inl h2)))
          · exact List.mem_append.mpr (Or.inr ((ihmem x).mpr (Or.inr rfl)))
      · intro k
        rw [List.map_cons, List.map_cons]
        constructor
        · intro h
          rcases List.mem_cons.mp h with rfl | h2
          · exact Or.inl (List.mem_cons.mpr (Or.inl rfl))
          · rcases (ihdom k).mp h2 with h3 | rfl
            · exact Or.inl (List.mem_cons.mpr (Or.inr h3))
            · exact Or.inr rfl
        · rintro (h | rfl)
          · rcases List.mem_cons.mp h with rfl | h2
            · exact List.mem_cons.mpr (Or.inl rfl)
            · exact List.mem_cons.mpr (Or.inr ((ihdom k).mpr (Or.inl h2)))
          · exact List.mem_cons.mpr (Or.inr ((ihdom k).mpr (Or.inr rfl)))

theorem byDomain_inv (m : List (String × Nat)) (hm : ∀ kv ∈ m, 1 ≤ kv.2) :
    DomInv (byDomain m) ∧ (∀ x, x ∈ allUrls (byDomain m) ↔ x ∈ m.map Prod.fst) := by
  suffices h : ∀ (acc : List DomAcc), DomInv acc → (∀ kv ∈ m, 1 ≤ kv.2) →
      DomInv (m.foldl (fun acc2 kv => addDom (domainKey kv.1) kv.1 kv.2 acc2) acc) ∧
      (∀ x, x ∈ allUrls (m.foldl (fun acc2 kv => addDom (domainKey kv.1) kv.1 kv.2 acc2) acc) ↔
        x ∈ allUrls acc ∨ x ∈ m.map Prod.fst) by
    obtain ⟨h1, h2⟩ := h [] ⟨by simp, by simp, by simp [allUrls]⟩ hm
    exact ⟨h1, fun x => by simpa [allUrls] using h2 x⟩
  clear hm
  induction m with
  | nil =>
    intro acc hacc _
    exact ⟨hacc, fun x => by simp⟩
  | cons kv rest ih =>
    intro acc hacc hm
    rw [List.foldl_cons]
    obtain ⟨hadd, haddmem, _⟩ :=
      addDom_inv hacc rfl (hm kv (by simp))
    obtain ⟨h1, h2⟩ := ih (addDom (domainKey kv.1) kv.1 kv.2 acc) hadd
      (fun kv2 hkv2 => hm kv2 (by simp [hkv2]))
    refine ⟨h1, fun x => ?_⟩
    rw [h2 x, haddmem x]
    rw [List.map_cons, List.mem_cons]
    constructor
    · rintro ((h3 | rfl) | h3)
      · exact Or.inl h3
      · exact Or.inr (Or.inl rfl)
      · exact Or.inr (Or.inr h3)
    · rintro (h3 | h3 | h3)
      · exact Or.inl (Or.inl h3)
      · exact Or.inl (Or.inr h3)
      · exact Or.inr h3

theorem insertStrLe_perm (x : String) (l : List String) :
    (insertStrLe x l).Perm (x :: l) := by
  induction l with
  | nil => exact List.Perm.refl _
  | cons y ys ih =>
    simp only [insertStrLe]
    by_cases h : strLeB x y = true
    · rw [if_pos h]
    · rw [if_neg h]
      exact List.Perm.trans (List.Perm.cons y ih) (List.Perm.swap x y ys)

theorem sortStrs_perm (l : List String) : (sortStrs l).Perm l := by
  induction l with
  | nil => exact List.Perm.refl _
  | cons x xs ih =>
    show (insertStrLe x (sortStrs xs)).Perm (x :: xs)
    exact List.Perm.trans (insertStrLe_perm x (sortStrs xs)) (List.Perm.cons x ih)

theorem insertByCount_perm (x : SourcesByDomain) (l : List SourcesByDomain) :
    (insertByCount x l).Perm (x :: l) := by
  induction l with
  | nil => exact List.Perm.refl _
  | cons y ys ih =>
    simp only [insertByCount]
    by_cases h : y.count ≤ x.count
    · rw [if_pos h]
    · rw [if_neg h]
      exact List.Perm.trans (List.Perm.cons y ih) (List.Perm.swap x y ys)

theorem sortByCountDesc_perm (l : List SourcesByDomain) :
    (sortByCountDesc l).Perm l := by
  induction l with
  | nil => exact List.Perm.refl _
  | cons x xs ih =>
    show (insertByCount x (sortByCountDesc xs)).Perm (x :: xs)
    exact List.Perm.trans (insertByCount_perm x (sortByCountDesc xs)) (List.Perm.cons x ih)

theorem listLeC_total (a b : List Char) : listLeC a b = true ∨ listLeC b a = true := by
  induction a generalizing b with
  | nil => exact Or.inl rfl
  | cons c cs ih =>
    cases b with
    | nil => exact Or.inr rfl
    | cons d ds =>
      simp only [listLeC]
      rcases Nat.lt_trichotomy c.toNat d.toNat with h | h | h
      · left
        rw [if_pos h]
      · have hcd : c = d := char_eq_of_toNat_eq h
        subst hcd
        rw [if_neg (by omega), if_pos rfl]
        rcases ih ds with h2 | h2
        · exact Or.inl h2
        · right
          rw [if_neg (by omega), if_pos rfl]
          exact h2
      · right
        rw [if_pos h]

theorem strLeB_total (a b : String) : strLeB a b = true ∨ strLeB b a = true :=
  listLeC_total a.data b.data

theorem insertStrLe_chain {x : String} {l : List String}
    (hl : List.Chain' (fun a b => strLeB a b = true) l) :
    List.Chain' (fun a b => strLeB a b = true) (insertStrLe x l) := by
  induction l with
  | nil => simp [insertStrLe]
  | cons y ys ih =>
    simp only [insertStrLe]
    by_cases hxy : strLeB x y = true
    · rw [if_pos hxy]
      exact List.chain'_cons.mpr ⟨hxy, hl⟩
    · rw [if_neg hxy]
      have hyx : strLeB y x = true := by
        rcases strLeB_total x y with h | h
        · exact absurd h hxy
        · exact h
      have htail : List.Chain' (fun a b => strLeB a b = true) ys := hl.tail
      refine List.Chain'.cons' (ih htail) ?_
      intro z hz
      cases ys with
      | nil =>
        rw [show insertStrLe x [] = [x] from rfl] at hz
        rw [show ([x] : List String).head? = some x from rfl] at hz
        cases hz
        exact hyx
      | cons w ws =>
        simp only [insertStrLe] at hz
        by_cases hxw : strLeB x w = true
        · rw [if_pos hxw] at hz
          cases hz
          exact hyx
        · rw [if_neg hxw] at hz
          cases hz
          exact (List.chain'_cons.mp hl).1

theorem sortStrs_chain (l : List String) :
    List.Chain' (fun a b => strLeB a b = true) (sortStrs l) := by
  induction l with
  | nil => simp [sortStrs]
  | cons x xs ih => exact insertStrLe_chain ih

theorem insertByCount_chain {x : SourcesByDomain} {l : List SourcesByDomain}
    (hl : List.Chain' (fun a b => b.count ≤ a.count) l) :
    List.Chain' (fun a b => b.count ≤ a.count) (insertByCount x l) := by
  induction l with
  | nil => simp [insertByCount]
  | cons y ys ih =>
    simp only [insertByCount]
    by_cases hxy : y.count ≤ x.count
    · rw [if_pos hxy]
      exact List.chain'_cons.mpr ⟨hxy, hl⟩
    · rw [if_neg hxy]
      have hyx : x.count ≤ y.count := by omega
      have htail : List.Chain' (fun a b => b.count ≤ a.count) ys := hl.tail
      refine List.Chain'.cons' (ih htail) ?_
      intro z hz
      cases ys with
      | nil =>
        rw [show insertByCount x [] = [x] from rfl] at hz
        rw [show ([x] : List SourcesByDomain).head? = some x from rfl] at hz
        cases hz
        exact hyx
      | cons w ws =>
        simp only [insertByCount] at hz
        by_cases hxw : w.count ≤ x.count
        · rw [if_pos hxw] at hz
          cases hz
          exact hyx
        · rw [if_neg hxw] at hz
          cases hz
          exact (List.chain'_cons.mp hl).1

theorem sortByCountDesc_chain (l : List SourcesByDomain) :
    List.Chain' (fun a b => b.count ≤ a.count) (sortByCountDesc l) := by
  induction l with
  | nil => simp [sortByCountDesc]
  | cons x xs ih => exact insertByCount_chain ih

/-- Strict code-unit order on strings, the ascending tie-break the claim
describes. -/
def strLtB (a b : String) : Bool := strLeB a b && !(a == b)

/-- Claim C4 counterexample: two URLs on distinct domains with equal
counts come out in first-insertion order (b.com before a.com), not in
ascending domain order as the claimed tie-break requires. -/
theorem c4_tie_order_counterexample :
    groupSources ["https://b.com/x", "https://a.com/x"] =
      [⟨"b.com", 1, ["https://b.com/x"], SourceCategory.other⟩,
       ⟨"a.com", 1, ["https://a.com/x"], SourceCategory.other⟩] ∧
    ¬ List.Chain'
      (fun a b => b.count < a.count ∨ (a.count = b.count ∧ strLtB a.domain b.domain = true))
      (groupSources ["https://b.com/x", "https://a.com/x"]) := by
  have h1 : groupSources ["https://b.com/x", "https://a.com/x"] =
      [⟨"b.com", 1, ["https://b.com/x"], SourceCategory.other⟩,
       ⟨"a.com", 1, ["https://a.com/x"], SourceCategory.other⟩] := by decide
  refine ⟨h1, ?_⟩
  intro hch
  rw [h1] at hch
  rcases (List.chain'_cons.mp hch).1 with h | ⟨_, h⟩
  · exact absurd h (by decide)
  · exact absurd h (by decide)

/-- Claim C4 amended: the aggregator's output is sorted by count
descending (the sort is stable, so equal counts keep first-insertion
order rather than ascending domain order); within every entry the urls
list is sorted ascending in code-unit order and the category is other
before classification is applied. -/
theorem c4_sorted_output (urls : List String) :
    List.Chain' (fun a b => b.count ≤ a.count) (groupSources urls) ∧
    (∀ e ∈ groupSources urls,
      List.Chain' (fun a b => strLeB a b = true) e.urls ∧
      e.category = SourceCategory.other) := by
  constructor
  · exact sortByCountDesc_chain _
  · intro e he
    have hmem : e ∈ (byDomain (countByUrl urls)).map
        (fun e0 => (⟨e0.domain, e0.count, sortStrs e0.urls, SourceCategory.other⟩ :
          SourcesByDomain)) :=
      (sortByCountDesc_perm _).subset he
    obtain ⟨e0, _, rfl⟩ := List.mem_map.mp hmem
    exact ⟨sortStrs_chain e0.urls, rfl⟩

/-- Claim C4 witness: the amended sortedness at a concrete input with two
URLs on one domain and one on another, instantiated at the two-URL entry. -/
theorem c4_sorted_output_witness :
    List.Chain' (fun a b => b.count ≤ a.count)
      (groupSources ["https://a.com/y", "https://b.com/x", "https://a.com/z"]) ∧
    (List.Chain' (fun a b => strLeB a b = true)
      (⟨"a.com", 2, ["https://a.com/y", "https://a.com/z"],
        SourceCategory.other⟩ : SourcesByDomain).urls ∧
      (⟨"a.com", 2, ["https://a.com/y", "https://a.com/z"],
        SourceCategory.other⟩ : SourcesByDomain).category = SourceCategory.other) :=
  ⟨(c4_sorted_output ["https://a.com/y", "https://b.com/x", "https://a.com/z"]).1,
   (c4_sorted_output ["https://a.com/y", "https://b.com/x", "https://a.com/z"]).2 _ (by decide)⟩

/-- Claim C8: flattening the urls of all aggregator entries recovers
exactly the distinct URL strings of the input — without duplicates, and a
URL appears in the flattening exactly when it occurs in the input. -/
theorem c8_partition (urls : List String) :
    ((groupSources urls).flatMap (fun e => e.urls)).Nodup ∧
    (∀ u, u ∈ (groupSources urls).flatMap (fun e => e.urls) ↔ u ∈ urls) := by
  obtain ⟨hnd, hpos, hkeys⟩ := countByUrl_inv urls
  obtain ⟨⟨_, _, hunodup⟩, humem⟩ := byDomain_inv (countByUrl urls) hpos
  have hperm : ((groupSources urls).flatMap (fun e => e.urls)).Perm
      (allUrls (byDomain (countByUrl urls))) := by
    have h1 : ((groupSources urls).flatMap (fun e => e.urls)).Perm
        (((byDomain (countByUrl urls)).map
          (fun e0 => (⟨e0.domain, e0.count, sortStrs e0.urls, SourceCategory.other⟩ :
            SourcesByDomain))).flatMap (fun e => e.urls)) :=
      List.Perm.flatMap_right _ (sortByCountDesc_perm _)
    have h2 : (((byDomain (countByUrl urls)).map
        (fun e0 => (⟨e0.domain, e0.count, sortStrs e0.urls, SourceCategory.other⟩ :
          SourcesByDomain))).flatMap (fun e => e.urls)) =
        (byDomain (countByUrl urls)).flatMap (fun e0 => sortStrs e0.urls) :=
      List.flatMap_map _ _ _
    have h3 : ((byDomain (countByUrl urls)).flatMap (fun e0 => sortStrs e0.urls)).Perm
        (allUrls (byDomain (countByUrl urls))) :=
      List.Perm.flatMap_left _ (fun e0 _ => sortStrs_perm e0.urls)
    exact (h1.trans (h2 ▸ List.Perm.refl _)).trans h3
  constructor
  · exact (hperm.nodup_iff).mpr hunodup
  · intro u
    rw [hperm.mem_iff, humem u, ← hkeys u]

/-- Claim C10: every aggregator entry has a non-empty, duplicate-free urls
list, a count at least the number of its distinct URLs (the count sums
per-URL citation multiplicities), and every URL in the entry maps to the
entry's domain under domainKey. -/
theorem c10_entry_invariants (urls : List String) :
    ∀ e ∈ groupSources urls,
      e.urls ≠ [] ∧ e.urls.Nodup ∧ e.urls.length ≤ e.count ∧
      ∀ u ∈ e.urls, domainKey u = e.domain := by
  intro e he
  obtain ⟨_, hpos, _⟩ := countByUrl_inv urls
  obtain ⟨⟨_, hent, _⟩, _⟩ := byDomain_inv (countByUrl urls) hpos
  have hmem : e ∈ (byDomain (countByUrl urls)).map
      (fun e0 => (⟨e0.domain, e0.count, sortStrs e0.urls, SourceCategory.other⟩ :
        SourcesByDomain)) :=
    (sortByCountDesc_perm _).subset he
  obtain ⟨e0, he0, rfl⟩ := List.mem_map.mp hmem
  obtain ⟨h1, h2, h3, h4⟩ := hent e0 he0
  have hp := sortStrs_perm e0.urls
  refine ⟨?_, ?_, ?_, ?_⟩
  · show sortStrs e0.urls ≠ []
    intro hnil
    rw [hnil] at hp
    exact h1 (List.Perm.eq_nil hp.symm)
  · exact (hp.nodup_iff).mpr h2
  · show (sortStrs e0.urls).length ≤ e0.count
    rw [hp.length_eq]
    exact h3
  · intro u hu
    exact h4 u (hp.subset hu)

/-- Claim C10 witness: the entry invariants at a concrete grouping with a
repeated citation: the a.com entry has two distinct URLs and count 3. -/
theorem c10_entry_invariants_witness :
    (⟨"a.com", 3, ["https://a.com/y", "https://a.com/z"],
      SourceCategory.other⟩ : SourcesByDomain).urls ≠ [] ∧
    (⟨"a.com", 3, ["https://a.com/y", "https://a.com/z"],
      SourceCategory.other⟩ : SourcesByDomain).urls.Nodup ∧
    (⟨"a.com", 3, ["https://a.com/y", "https://a.com/z"],
      SourceCategory.other⟩ : SourcesByDomain).urls.length ≤
      (⟨"a.com", 3, ["https://a.com/y", "https://a.com/z"],
        SourceCategory.other⟩ : SourcesByDomain).count ∧
    ∀ u ∈ (⟨"a.com", 3, ["https://a.com/y", "https://a.com/z"],
      SourceCategory.other⟩ : SourcesByDomain).urls,
        domainKey u = (⟨"a.com", 3, ["https://a.com/y", "https://a.com/z"],
          SourceCategory.other⟩ : SourcesByDomain).domain :=
  c10_entry_invariants ["https://a.com/y", "https://a.com/z", "https://a.com/y"] _ (by decide)

/-! Claim C7: crawl output invariants. -/

theorem crawlLinkStep_inv (base : String) (resolve : String → Option String)
    (s : CrawlSt) (href : String)
    (hq : ∀ q ∈ s.queue, sameOrigin base q = true) :
    (crawlLinkStep base resolve s href).results = s.results ∧
    (∀ q ∈ (crawlLinkStep base resolve s href).queue, sameOrigin base q = true) := by
  unfold crawlLinkStep
  by_cases h1 : ("#".data.isPrefixOf href.data || "mailto:".data.isPrefixOf href.data) = true
  · rw [if_pos h1]
    exact ⟨rfl, hq⟩
  · rw [if_neg h1]
    split
    · exact ⟨rfl, hq⟩
    · rename_i absolute _
      by_cases h2 : (sameOrigin base absolute && !(s.seen.contains absolute)) = true
      · rw [if_pos h2]
        refine ⟨rfl, ?_⟩
        intro q hqm
        rcases List.mem_append.mp hqm with hqm2 | hqm2
        · exact hq q hqm2
        · rw [List.mem_singleton.mp hqm2]
          rw [Bool.and_eq_true] at h2
          exact h2.1
      · rw [if_neg h2]
        exact ⟨rfl, hq⟩

theorem crawlLinks_inv (base : String) (resolve : String → Option String)
    (hrefs : List String) (st1 : CrawlSt)
    (hq : ∀ q ∈ st1.queue, sameOrigin base q = true) :
    (hrefs.foldl (crawlLinkStep base resolve) st1).results = st1.results ∧
    (∀ q ∈ (hrefs.foldl (crawlLinkStep base resolve) st1).queue,
      sameOrigin base q = true) := by
  induction hrefs generalizing st1 with
  | nil => exact ⟨rfl, hq⟩
  | cons href rest ih =>
    rw [List.foldl_cons]
    obtain ⟨h1, h2⟩ := crawlLinkStep_inv base resolve st1 href hq
    obtain ⟨h3, h4⟩ := ih (crawlLinkStep base resolve st1 href) h2
    exact ⟨h3.trans h1, h4⟩

theorem crawlVisit_inv (base url : String) (resolve : String → Option String)
    (fetched : Option (String × List String)) (st : CrawlSt)
    (hurl : sameOrigin base url = true)
    (hres : ∀ p ∈ st.results, p.text.length > 100 ∧ sameOrigin base p.url = true)
    (hq : ∀ q ∈ st.queue, sameOrigin base q = true)
    (hlen : st.results.length < MAX_PAGES) :
    (crawlVisit base resolve url fetched st).results.length ≤ MAX_PAGES ∧
    (∀ p ∈ (crawlVisit base resolve url fetched st).results,
      p.text.length > 100 ∧ sameOrigin base p.url = true) ∧
    (∀ q ∈ (crawlVisit base resolve url fetched st).queue,
      sameOrigin base q = true) := by
  cases fetched with
  | none => exact ⟨Nat.le_of_lt hlen, hres, hq⟩
  | some tl =>
    obtain ⟨text, hrefs⟩ := tl
    rw [show crawlVisit base resolve url (some (text, hrefs)) st =
      hrefs.foldl (crawlLinkStep base resolve)
        (if text.length > 100 then { st with results := st.results ++ [⟨url, text⟩] }
         else st) from rfl]
    by_cases ht : text.length > 100
    · rw [show (if text.length > 100 then
          { st with results := st.results ++ [⟨url, text⟩] } else st) =
        { st with results := st.results ++ [⟨url, text⟩] } from if_pos ht]
      obtain ⟨h1, h2⟩ := crawlLinks_inv base resolve hrefs
        { st with results := st.results ++ [⟨url, text⟩] } hq
      rw [h1]
      refine ⟨?_, ?_, h2⟩
      · rw [List.length_append]
        simp only [List.length_singleton]
        omega
      · intro p hp
        rcases List.mem_append.mp hp with hp2 | hp2
        · exact hres p hp2
        · rw [List.mem_singleton.mp hp2]
          exact ⟨ht, hurl⟩
    · rw [show (if text.length > 100 then
          { st with results := st.results ++ [⟨url, text⟩] } else st) = st from if_neg ht]
      obtain ⟨h1, h2⟩ := crawlLinks_inv base resolve hrefs st hq
      rw [h1]
      exact ⟨Nat.le_of_lt hlen, hres, h2⟩

theorem crawlLoop_succ_nil (fetchO : String → Option (String × List String))
    (resolve : String → Option String) (base : String) (fuel : Nat) (st : CrawlSt)
    (hqs : st.queue = []) :
    crawlLoop fetchO resolve base (fuel + 1) st = st.results := by
  show (match st.queue with
    | [] => st.results
    | url :: rest =>
      if st.results.length < MAX_PAGES then
        crawlLoop fetchO resolve base fuel
          (crawlVisit base resolve url (fetchO url) { st with queue := rest })
      else st.results) = _
  rw [hqs]

theorem crawlLoop_succ_cons (fetchO : String → Option (String × List String))
    (resolve : String → Option String) (base : String) (fuel : Nat) (st : CrawlSt)
    (url : String) (rest : List String) (hqs : st.queue = url :: rest) :
    crawlLoop fetchO resolve base (fuel + 1) st =
      if st.results.length < MAX_PAGES then
        crawlLoop fetchO resolve base fuel
          (crawlVisit base resolve url (fetchO url) { st with queue := rest })
      else st.results := by
  show (match st.queue with
    | [] => st.results
    | url :: rest =>
      if st.results.length < MAX_PAGES then
        crawlLoop fetchO resolve base fuel
          (crawlVisit base resolve url (fetchO url) { st with queue := rest })
      else st.results) = _
  rw [hqs]

theorem crawlLoop_inv (fetchO : String → Option (String × List String))
    (resolve : String → Option String) (base : String) (fuel : Nat) :
    ∀ st : CrawlSt, st.results.length ≤ MAX_PAGES →
      (∀ p ∈ st.results, p.text.length > 100 ∧ sameOrigin base p.url = true) →
      (∀ q ∈ st.queue, sameOrigin base q = true) →
      (crawlLoop fetchO resolve base fuel st).length ≤ MAX_PAGES ∧
      ∀ p ∈ crawlLoop fetchO resolve base fuel st,
        p.text.length > 100 ∧ sameOrigin base p.url = true := by
  induction fuel with
  | zero =>
    intro st hlen hres _
    exact ⟨hlen, hres⟩
  | succ fuel ih =>
    intro st hlen hres hq
    cases hqs : st.queue with
    | nil =>
      rw [crawlLoop_succ_nil fetchO resolve base fuel st hqs]
      exact ⟨hlen, hres⟩
    | cons url rest =>
      rw [crawlLoop_succ_cons fetchO resolve base fuel st url rest hqs]
      by_cases hlt : st.results.length < MAX_PAGES
      · rw [if_pos hlt]
        have hurl : sameOrigin base url = true := hq url (by rw [hqs]; simp)
        have hqrest : ∀ q ∈ rest, sameOrigin base q = true :=
          fun q hq2 => hq q (by rw [hqs]; simp [hq2])
        obtain ⟨h1, h2, h3⟩ := crawlVisit_inv base url resolve (fetchO url)
          { st with queue := rest } hurl hres hqrest hlt
        exact ih _ h1 h2 h3
      · rw [if_neg hlt]
        exact ⟨hlen, hres⟩

theorem sameOrigin_elim {b u : String} (h : sameOrigin b u = true) :
    ∃ up ub, parseURL u = some up ∧ parseURL b = some ub ∧
      originChars up = originChars ub := by
  unfold sameOrigin at h
  cases hb : parseURL b with
  | none => rw [hb] at h; cases hu : parseURL u <;> rw [hu] at h <;> exact absurd h (by simp)
  | some ub =>
    cases hu : parseURL u with
    | none => rw [hb, hu] at h; exact absurd h (by simp)
    | some up =>
      rw [hb, hu] at h
      exact ⟨up, ub, rfl, rfl, by
        have h2 : (originChars ub == originChars up) = true := h
        exact (beq_iff_eq.mp h2).symm⟩

/-- Claim C7: for every fetch and resolution behaviour and every fuel,
when the normalized seed parses, the crawl returns at most MAX_PAGES
pages, and every returned page has extracted text longer than 100
characters and a URL whose parsed origin equals the normalized seed's
parsed origin. -/
theorem c7_crawl_invariants (siteUrl : String)
    (fetchO : String → Option (String × List String))
    (resolve : String → Option String) (fuel : Nat)
    (h : (parseURL (normalizeBase siteUrl)).isSome = true) :
    (crawlSite siteUrl fetchO resolve fuel).length ≤ MAX_PAGES ∧
    ∀ p ∈ crawlSite siteUrl fetchO resolve fuel,
      p.text.length > 100 ∧
      ∃ up ub, parseURL p.url = some up ∧
        parseURL (normalizeBase siteUrl) = some ub ∧
        originChars up = originChars ub := by
  obtain ⟨ub, hub⟩ := Option.isSome_iff_exists.mp h
  have hself : sameOrigin (normalizeBase siteUrl) (normalizeBase siteUrl) = true := by
    unfold sameOrigin
    rw [hub]
    exact beq_self_eq_true _
  obtain ⟨h1, h2⟩ := crawlLoop_inv fetchO resolve (normalizeBase siteUrl) fuel
    ⟨[normalizeBase siteUrl], [normalizeBase siteUrl], []⟩
    (by simp [MAX_PAGES]) (by simp)
    (by intro q hq; rw [List.mem_singleton.mp hq]; exact hself)
  refine ⟨h1, ?_⟩
  intro p hp
  obtain ⟨ht, hso⟩ := h2 p hp
  exact ⟨ht, sameOrigin_elim hso⟩

/-- Claim C7 witness: the invariants applied to a concrete crawl of a
parsable seed whose fetches all fail (an unreachable site): at most
MAX_PAGES results. -/
theorem c7_crawl_invariants_witness :
    (crawlSite "https://example.com" (fun _ => none) (fun _ => none) 3).length ≤ MAX_PAGES ∧
    ∀ p ∈ crawlSite "https://example.com" (fun _ => none) (fun _ => none) 3,
      p.text.length > 100 ∧
      ∃ up ub, parseURL p.url = some up ∧
        parseURL (normalizeBase "https://example.com") = some ub ∧
        originChars up = originChars ub :=
  c7_crawl_invariants "https://example.com" (fun _ => none) (fun _ => none) 3 (by decide)
